import Mathlib

/-!
Verification of the recurring-payment detection and caching pipeline of the
clearflow backend (`app/services/recurring_detection.py` and
`app/services/recurring_insights.py`).

Modelling conventions:
* Monetary amounts are rationals (`ℚ`); Python floats only enter through
  exact decimal literals in the scenarios considered here.
* Calendar dates are day numbers (`ℤ`, days since 1970-01-01, as in the
  proleptic Gregorian calendar used by `datetime.date`); `dateToDays`
  converts a civil date to its day number.  Python stores dates as ISO
  strings `YYYY-MM-DD` inside the merchant dictionaries and parses them
  back with `strptime`; since lexicographic order of such strings equals
  chronological order, the round trip is modelled as the identity on day
  numbers.
* `datetime` timestamps (`last_analyzed_at`, `analyzed_at`) are integers;
  for the insights staleness check time is modelled at day resolution,
  matching the `.days` truncation in the source.
* Python's `x or default` on nullable strings/numbers is modelled by
  `strOr` / `qOr` / `natOr` (both `None` and the empty/zero value are
  falsy).
-/

namespace Clearflow

/-! ### Generic list helpers -/

/-- Insert `x` into `l` before the first element whose key is not smaller,
the insertion step of a stable insertion sort (Python `list.sort` /
`sorted` are stable). -/
def insertSorted {α : Type} (key : α → ℤ) (x : α) : List α → List α
  | [] => [x]
  | y :: ys => if key x ≤ key y then x :: y :: ys else y :: insertSorted key x ys

/-- Stable sort by an integer key, modelling Python `sorted(l, key=...)`. -/
def sortOn {α : Type} (key : α → ℤ) : List α → List α
  | [] => []
  | x :: xs => insertSorted key x (sortOn key xs)

/-- Replace the first element satisfying `p` by `x`. -/
def replaceFirst {α : Type} (p : α → Bool) (x : α) : List α → List α
  | [] => []
  | a :: as => if p a then x :: as else a :: replaceFirst p x as

/-- SQLAlchemy-style upsert on a list model of a table: if a row matching
`p` exists, the first such row is updated in place by `upd`; otherwise
`fresh` is inserted (appended).  Returns the written row and the table. -/
def upsertInto {α : Type} (p : α → Bool) (upd : α → α) (fresh : α) (store : List α) :
    α × List α :=
  match store.find? p with
  | some e => (upd e, replaceFirst p (upd e) store)
  | none => (fresh, store ++ [fresh])

/-! ### Dates -/

/-- Day number of a civil date (days since 1970-01-01), the standard
`days_from_civil` computation; agrees with `datetime.date` ordinal
arithmetic up to a constant offset, which cancels in all differences. -/
def dateToDays (y m d : ℤ) : ℤ :=
  let y2 := if m ≤ 2 then y - 1 else y
  let era := Int.fdiv y2 400
  let yoe := y2 - era * 400
  let mp := Int.emod (m + 9) 12
  let doy := (153 * mp + 2) / 5 + d - 1
  let doe := yoe * 365 + yoe / 4 - yoe / 100 + doy
  era * 146097 + doe - 719468

/-! ### Statistics engine (`recurring_detection.py`) -/

/-- Row of the `transactions` table, restricted to the columns read by the
detection pipeline. -/
structure Transaction where
  id : ℕ
  user_id : ℕ
  merchant_key : String
  date : ℤ
  amount : ℚ
  note_user : Option String
  description_raw : String
  category : Option String
deriving DecidableEq

/-- Result of `calculate_transaction_stats`. -/
structure Stats where
  count : ℕ
  avg_interval_days : ℚ
  amount_min : ℚ
  amount_max : ℚ
  amount_variance_pct : ℚ
deriving DecidableEq

/-- Python `abs` on a rational (spelled out so that every definition here
evaluates by kernel reduction). -/
def pyAbs (q : ℚ) : ℚ := if q < 0 then -q else q

/-- Day deltas between consecutive elements of a date list. -/
def pairDeltas : List ℤ → List ℤ
  | a :: b :: rest => (b - a) :: pairDeltas (b :: rest)
  | _ => []

/-- Minimum of a rational list, 0 on the empty list (the source only calls
`min` on non-empty lists). -/
def listMin : List ℚ → ℚ
  | [] => 0
  | a :: as => as.foldl min a

/-- Maximum of a rational list, 0 on the empty list. -/
def listMax : List ℚ → ℚ
  | [] => 0
  | a :: as => as.foldl max a

/-- Model of `calculate_transaction_stats`: sort by date, average the positive
day-gaps between consecutive transactions (same-day gaps discarded), and
compute the amount spread `(max-min)/min*100` over absolute amounts. -/
def calculate_transaction_stats (transactions : List Transaction) : Stats :=
  if transactions.isEmpty then
    { count := 0, avg_interval_days := 0, amount_min := 0, amount_max := 0
      amount_variance_pct := 0 }
  else
    let sorted_txns := sortOn (fun t => t.date) transactions
    let intervals := (pairDeltas (sorted_txns.map (fun t => t.date))).filter (fun i => 0 < i)
    let avg_interval : ℚ := if intervals.isEmpty then 0 else
      ((intervals.foldl (· + ·) 0 : ℤ) : ℚ) / (intervals.length : ℚ)
    let amounts := transactions.map (fun t => pyAbs t.amount)
    let amount_min := listMin amounts
    let amount_max := listMax amounts
    let variance_pct := if 0 < amount_min then (amount_max - amount_min) / amount_min * 100 else 0
    { count := transactions.length, avg_interval_days := avg_interval
      amount_min := amount_min, amount_max := amount_max
      amount_variance_pct := variance_pct }

/-- Model of `detect_frequency_from_interval`: classify an average interval into one
of five fixed day-range buckets. -/
def detect_frequency_from_interval (avg_interval : ℚ) : Option String :=
  if avg_interval ≤ 0 then none
  else if 5 ≤ avg_interval ∧ avg_interval ≤ 9 then some "weekly"
  else if 12 ≤ avg_interval ∧ avg_interval ≤ 17 then some "bi-weekly"
  else if 26 ≤ avg_interval ∧ avg_interval ≤ 35 then some "monthly"
  else if 85 ≤ avg_interval ∧ avg_interval ≤ 100 then some "quarterly"
  else if 350 ≤ avg_interval ∧ avg_interval ≤ 380 then some "yearly"
  else none

/-- Model of `calculate_next_expected_date`: fixed day offset per frequency, `none`
for an unknown frequency. -/
def calculate_next_expected_date (last_date : ℤ) (frequency : String) : Option ℤ :=
  match frequency with
  | "weekly" => some (last_date + 7)
  | "bi-weekly" => some (last_date + 14)
  | "monthly" => some (last_date + 30)
  | "quarterly" => some (last_date + 90)
  | "yearly" => some (last_date + 365)
  | _ => none

/-- Model of `calculate_monthly_amount`: monthly-equivalent multiplier table,
defaulting to 1 for an unknown frequency. -/
def calculate_monthly_amount (amount : ℚ) (frequency : String) : ℚ :=
  match frequency with
  | "weekly" => amount * (433 / 100)
  | "bi-weekly" => amount * (217 / 100)
  | "monthly" => amount * 1
  | "quarterly" => amount * (1 / 3)
  | "yearly" => amount * (1 / 12)
  | _ => amount * 1

/-! ### Pattern cache store (`models/recurring_cache.py`) -/

/-- Row of the `recurring_cache` table (the autoincrement `id` column is
omitted; rows are identified by `(user_id, merchant_key)`, unique by the
table constraint). -/
structure RecurringCache where
  user_id : ℕ
  merchant_key : String
  merchant_name : Option String
  is_recurring : Bool
  frequency : Option String
  typical_amount : Option ℚ
  amount_variance : Option String
  confidence : Option String
  category : Option String
  transaction_count : Option ℕ
  first_transaction_date : Option ℤ
  last_transaction_date : Option ℤ
  next_expected_date : Option ℤ
  ai_verified : Bool
  ai_notes : Option String
  created_at : ℤ
  last_analyzed_at : ℤ
deriving DecidableEq

/-- Python `x or default` for a nullable string column (`None` and `""`
are falsy). -/
def strOr (x : Option String) (d : String) : String :=
  match x with
  | some s => if s = "" then d else s
  | none => d

/-- Python `x or default` for a nullable numeric column (`None` and `0`
are falsy). -/
def qOr (x : Option ℚ) (d : ℚ) : ℚ :=
  match x with
  | some q => if q = 0 then d else q
  | none => d

/-- Python `x or default` for a nullable integer column. -/
def natOr (x : Option ℕ) (d : ℕ) : ℕ :=
  match x with
  | some n => if n = 0 then d else n
  | none => d

/-- Output dictionary of `_cache_to_dict`. -/
structure PayDict where
  merchant_key : String
  merchant_name : String
  category : String
  frequency : String
  typical_amount : ℚ
  amount_variance : String
  confidence : String
  transaction_count : ℕ
  last_transaction_date : Option ℤ
  next_expected_date : Option ℤ
  ai_notes : Option String
deriving DecidableEq

/-- Model of `_cache_to_dict`. -/
def _cache_to_dict (cache : RecurringCache) : PayDict :=
  { merchant_key := cache.merchant_key
    merchant_name := strOr cache.merchant_name cache.merchant_key
    category := strOr cache.category "Other"
    frequency := strOr cache.frequency "monthly"
    typical_amount := qOr cache.typical_amount 0
    amount_variance := strOr cache.amount_variance "variable"
    confidence := strOr cache.confidence "low"
    transaction_count := natOr cache.transaction_count 0
    last_transaction_date := cache.last_transaction_date
    next_expected_date := cache.next_expected_date
    ai_notes := cache.ai_notes }

/-- SQL filter `category != "Income"`: a NULL category does not satisfy a
SQL inequality, so NULL-category rows are excluded as well. -/
def catNotIncome (category : Option String) : Bool :=
  match category with
  | some s => s ≠ "Income"
  | none => false

/-- Row predicate for the `(user_id, merchant_key)` cache lookup used by
both upsert branches. -/
def keyMatch (uid : ℕ) (k : String) (c : RecurringCache) : Bool :=
  c.user_id == uid && c.merchant_key == k

/-- The cached-recurring query shared by `detect_recurring_payments`,
`get_cached_recurring_payments` and `generate_recurring_insights`:
`is_recurring == True and category != "Income"` for one user. -/
def cachedRecurringFor (uid : ℕ) (store : List RecurringCache) : List RecurringCache :=
  store.filter (fun c => c.user_id == uid && c.is_recurring && catNotIncome c.category)

/-! ### Merchant grouping (`detect_recurring_payments`, Load/Filter) -/

/-- Merchant bundle handed to AI / algorithm-only detection.  In the
source this is the dict `{merchant_key, merchant_name, category,
transactions, stats}`. -/
structure MerchantInfo where
  merchant_key : String
  merchant_name : String
  category : Option String
  transactions : List Transaction
  stats : Stats
deriving DecidableEq

/-- Model of `txns[0].get("description_raw", merchant_key)`; the key is always
present for a non-empty group, the default only totalises the empty
case (unreachable in the source). -/
def headName (txns : List Transaction) (d : String) : String :=
  match txns with
  | [] => d
  | t :: _ => t.description_raw

/-- Model of `txns[0].get("category", "Other")`; the key is always present for a
non-empty group (its value may be NULL). -/
def headCategory (txns : List Transaction) : Option String :=
  match txns with
  | [] => some "Other"
  | t :: _ => t.category

/-- Build one entry of `merchants_to_analyze`. -/
def buildMerchant (merchant_key : String) (txns : List Transaction) : MerchantInfo :=
  { merchant_key := merchant_key
    merchant_name := headName txns merchant_key
    category := headCategory txns
    transactions := txns
    stats := calculate_transaction_stats txns }

/-- Append `t` to the group keyed `k`, creating the group at the end on
first sight — `defaultdict(list)` keeps keys in first-insertion order and
each list in append order. -/
def groupInsert (k : String) (t : Transaction)
    : List (String × List Transaction) → List (String × List Transaction)
  | [] => [(k, [t])]
  | (k0, ts) :: rest =>
    if k0 = k then (k0, ts ++ [t]) :: rest else (k0, ts) :: groupInsert k t rest

/-- Group transactions by `merchant_key` (`defaultdict(list)` loop). -/
def groupByMerchant (txns : List Transaction) : List (String × List Transaction) :=
  txns.foldl (fun acc t => groupInsert t.merchant_key t acc) []

/-! ### Verification oracle verdicts -/

/-- One parsed entry of the AI JSON array.  `Option` fields model absent
keys (read with `.get` and a default in the source).
`next_expected_date`: `none` = key absent or falsy, `some none` = present
but not parseable as `YYYY-MM-DD`, `some (some d)` = parses to day `d`. -/
structure Verdict where
  merchant_key : Option String
  is_recurring : Bool
  same_transaction : Bool
  frequency : Option String
  typical_amount : Option ℚ
  amount_variance : Option String
  confidence : Option String
  next_expected_date : Option (Option ℤ)
  notes : Option String
deriving DecidableEq

/-- Model of `merchant_key = result.get("merchant_key"); if not merchant_key: continue` —
an absent or empty key skips the verdict. -/
def keyOf (v : Verdict) : Option String :=
  match v.merchant_key with
  | some k => if k = "" then none else some k
  | none => none

/-- First and last dates of the date-sorted transaction list
(`sorted_txns[0]["date"]`, `sorted_txns[-1]["date"]`); `none` only for an
empty group (guarded by `if txns:` in the source). -/
def firstLastDates (txns : List Transaction) : Option ℤ × Option ℤ :=
  match sortOn (fun t => t.date) txns with
  | [] => (none, none)
  | t :: ts => (some t.date, some ((ts.foldl (fun _ x => x) t).date))

/-- Update branch of `_process_ai_results` for an existing cache row. -/
def aiUpdate (now : ℤ) (v : Verdict) (m : MerchantInfo) (isRec : Bool)
    (e : RecurringCache) : RecurringCache :=
  let fl := firstLastDates m.transactions
  { e with
    is_recurring := isRec
    frequency := v.frequency
    typical_amount := some (pyAbs (qOr v.typical_amount 0))
    amount_variance := some ((v.amount_variance).getD "variable")
    confidence := some ((v.confidence).getD "low")
    ai_verified := true
    ai_notes := some ((v.notes).getD "")
    last_analyzed_at := now
    transaction_count := some m.stats.count
    category := m.category
    merchant_name := some m.merchant_name
    first_transaction_date := if m.transactions.isEmpty then e.first_transaction_date else fl.1
    last_transaction_date := if m.transactions.isEmpty then e.last_transaction_date else fl.2
    next_expected_date :=
      match v.next_expected_date with
      | none => e.next_expected_date
      | some parsed => parsed }

/-- Create branch of `_process_ai_results` for a new cache row. -/
def aiFresh (uid : ℕ) (now : ℤ) (v : Verdict) (m : MerchantInfo) (isRec : Bool)
    (k : String) : RecurringCache :=
  let fl := firstLastDates m.transactions
  { user_id := uid
    merchant_key := k
    merchant_name := some m.merchant_name
    is_recurring := isRec
    frequency := v.frequency
    typical_amount := some (pyAbs (qOr v.typical_amount 0))
    amount_variance := some ((v.amount_variance).getD "variable")
    confidence := some ((v.confidence).getD "low")
    category := m.category
    transaction_count := some m.stats.count
    first_transaction_date := fl.1
    last_transaction_date := fl.2
    next_expected_date :=
      match v.next_expected_date with
      | none => none
      | some parsed => parsed
    ai_verified := true
    ai_notes := some ((v.notes).getD "")
    created_at := now
    last_analyzed_at := now }

/-- Model of `_process_ai_results`: walk the AI result list, skip verdicts without
a usable `merchant_key` or without a matching analyzed merchant, upsert a
cache row for each remaining verdict, and collect the dictionaries of the
rows whose final verdict is recurring (both `is_recurring` and
`same_transaction`). -/
def _process_ai_results (ai_results : List Verdict) (merchants : List MerchantInfo)
    (user_id : ℕ) (now : ℤ) (store : List RecurringCache) :
    List PayDict × List RecurringCache :=
  match ai_results with
  | [] => ([], store)
  | v :: rest =>
    match keyOf v with
    | none => _process_ai_results rest merchants user_id now store
    | some k =>
      match merchants.find? (fun m => m.merchant_key == k) with
      | none => _process_ai_results rest merchants user_id now store
      | some m =>
        let isRec := v.is_recurring && v.same_transaction
        let (entry, store1) :=
          upsertInto (keyMatch user_id k) (aiUpdate now v m isRec)
            (aiFresh user_id now v m isRec k) store
        let (ps, store2) := _process_ai_results rest merchants user_id now store1
        ((if isRec then [_cache_to_dict entry] else []) ++ ps, store2)

/-! ### Algorithm-only detection (`_algorithm_only_detection`) -/

/-- Update branch of `_algorithm_only_detection` for an existing cache
row (note: `merchant_name`, `category` and `ai_notes` are not updated on
this branch). -/
def algoUpdate (now : ℤ) (m : MerchantInfo) (f : String) (e : RecurringCache) :
    RecurringCache :=
  let fl := firstLastDates m.transactions
  { e with
    is_recurring := true
    frequency := some f
    typical_amount := some m.stats.amount_min
    amount_variance := some (if m.stats.amount_variance_pct < 5 then "fixed" else "variable")
    confidence := some "medium"
    ai_verified := false
    transaction_count := some m.stats.count
    first_transaction_date := fl.1
    last_transaction_date := fl.2
    next_expected_date :=
      match fl.2 with
      | some last => calculate_next_expected_date last f
      | none => none
    last_analyzed_at := now }

/-- Create branch of `_algorithm_only_detection`. -/
def algoFresh (uid : ℕ) (now : ℤ) (m : MerchantInfo) (f : String) : RecurringCache :=
  let fl := firstLastDates m.transactions
  { user_id := uid
    merchant_key := m.merchant_key
    merchant_name := some m.merchant_name
    is_recurring := true
    frequency := some f
    typical_amount := some m.stats.amount_min
    amount_variance := some (if m.stats.amount_variance_pct < 5 then "fixed" else "variable")
    confidence := some "medium"
    category := m.category
    transaction_count := some m.stats.count
    first_transaction_date := fl.1
    last_transaction_date := fl.2
    next_expected_date :=
      match fl.2 with
      | some last => calculate_next_expected_date last f
      | none => none
    ai_verified := false
    ai_notes := some "Detected by algorithm"
    created_at := now
    last_analyzed_at := now }

/-- Model of `_algorithm_only_detection`: a merchant group is recurring iff its
average interval classifies to a known frequency, its amount spread is
below 20% and it has at least two transactions; only recurring groups are
upserted (confidence "medium", `ai_verified=False`). -/
def _algorithm_only_detection (merchants : List MerchantInfo) (user_id : ℕ)
    (now : ℤ) (store : List RecurringCache) : List PayDict × List RecurringCache :=
  match merchants with
  | [] => ([], store)
  | m :: rest =>
    match detect_frequency_from_interval m.stats.avg_interval_days with
    | none => _algorithm_only_detection rest user_id now store
    | some f =>
      if m.stats.amount_variance_pct < 20 ∧ 2 ≤ m.stats.count then
        let (entry, store1) :=
          upsertInto (keyMatch user_id m.merchant_key) (algoUpdate now m f)
            (algoFresh user_id now m f) store
        let (ps, store2) := _algorithm_only_detection rest user_id now store1
        (_cache_to_dict entry :: ps, store2)
      else _algorithm_only_detection rest user_id now store

/-! ### Orchestrator (`detect_recurring_payments`) -/

/-- Result of one detection run: the returned list, the table state after
the run, and how many calls went out to the verification oracle. -/
structure DetectResult where
  payments : List PayDict
  store : List RecurringCache
  oracleCalls : ℕ
deriving DecidableEq

/-- The `transactions` query of `detect_recurring_payments`: the user's
expense rows (negative amounts) within the lookback window, ordered by
date descending. -/
def lookbackTransactions (user_id : ℕ) (table : List Transaction)
    (lookback_days today : ℤ) : List Transaction :=
  let cutoff_date := today - lookback_days
  sortOn (fun t => -t.date)
    (table.filter (fun t => t.user_id == user_id && cutoff_date ≤ t.date && t.amount < 0))

/-- The `candidates` local of `detect_recurring_payments`: merchant groups
with at least `min_occurrences` transactions, from the lookback window. -/
def candidateGroups (user_id : ℕ) (table : List Transaction) (min_occurrences : ℕ)
    (lookback_days today : ℤ) : List (String × List Transaction) :=
  (groupByMerchant (lookbackTransactions user_id table lookback_days today)).filter
    (fun g => min_occurrences ≤ g.2.length)

/-- Model of `detect_recurring_payments`.  Here `oracle = none` models a missing
`OPENROUTER_API_KEY` (no client, algorithm-only branch); `oracle = some vs`
models one successful batched AI call returning the verdicts `vs`.
`today` is `datetime.utcnow().date()`, `now` the timestamp written into
`last_analyzed_at`. -/
def detect_recurring_payments (user_id : ℕ) (store : List RecurringCache)
    (table : List Transaction) (min_occurrences : ℕ) (lookback_days : ℤ)
    (force_refresh : Bool) (oracle : Option (List Verdict)) (today now : ℤ) :
    DetectResult :=
  let cached := cachedRecurringFor user_id store
  if !force_refresh && !cached.isEmpty then
    { payments := cached.map _cache_to_dict, store := store, oracleCalls := 0 }
  else
    let candidates := candidateGroups user_id table min_occurrences lookback_days today
    if candidates.isEmpty then
      { payments := [], store := store, oracleCalls := 0 }
    else
      let merchants_to_analyze := candidates.map (fun g => buildMerchant g.1 g.2)
      match oracle with
      | none =>
        let (ps, st) := _algorithm_only_detection merchants_to_analyze user_id now store
        { payments := ps, store := st, oracleCalls := 0 }
      | some ai_results =>
        let (ps, st) := _process_ai_results ai_results merchants_to_analyze user_id now store
        { payments := ps, store := st, oracleCalls := 1 }

/-! ### Upcoming payments (`get_upcoming_payments`) -/

/-- Entry of the list returned by `get_upcoming_payments`. -/
structure UpcomingPayment where
  merchant_key : String
  merchant_name : String
  amount : ℚ
  expected_date : ℤ
  days_until : ℤ
deriving DecidableEq

/-- Model of `get_upcoming_payments`: recurring non-Income rows with a non-null
`next_expected_date` in `[today, today+days]`, ordered by that date. -/
def get_upcoming_payments (user_id : ℕ) (store : List RecurringCache)
    (days : ℤ) (today : ℤ) : List UpcomingPayment :=
  let future := today + days
  let upcoming := sortOn (fun c => c.next_expected_date.getD 0)
    (store.filter (fun c =>
      c.user_id == user_id && c.is_recurring && catNotIncome c.category &&
      (match c.next_expected_date with
       | some d => today ≤ d && d ≤ future
       | none => false)))
  upcoming.map (fun c =>
    { merchant_key := c.merchant_key
      merchant_name := strOr c.merchant_name c.merchant_key
      amount := qOr c.typical_amount 0
      expected_date := c.next_expected_date.getD 0
      days_until := c.next_expected_date.getD 0 - today })

/-! ### Insights (`recurring_insights.py`) -/

/-- One narrative insight entry. -/
structure Insight where
  type : String
  title : String
  message : String
  priority : String
deriving DecidableEq

/-- One upcoming-payment entry of an insights payload. -/
structure UpEntry where
  merchant : String
  amount : ℚ
  date : ℤ
  days_until : ℤ
deriving DecidableEq

/-- The `summary` block of an insights payload. -/
structure Summary where
  total_monthly : ℚ
  total_yearly : ℚ
  count : ℕ
  percentage_of_expenses : ℚ
  by_category : List (String × ℚ)
deriving DecidableEq

/-- An insights payload as returned to callers. -/
structure InsightsDict where
  summary : Summary
  insights : List Insight
  upcoming : List UpEntry
  generated_at : ℤ
deriving DecidableEq

/-- Row of the `recurring_insights` table (one per user). -/
structure InsightsSnapshot where
  user_id : ℕ
  summary : Summary
  insights : List Insight
  upcoming : List UpEntry
  created_at : ℤ
  analyzed_at : ℤ
deriving DecidableEq

/-- Model of `INSIGHTS_CACHE_DAYS`. -/
def INSIGHTS_CACHE_DAYS : ℤ := 30

/-- Model of `get_cached_insights`: here `snapshot` is the stored row for the user (or
`none`), `now` the current time; time is modelled at day resolution, so
`now - analyzed_at` is the `.days` value of the source's timedelta. -/
def get_cached_insights (snapshot : Option InsightsSnapshot) (now : ℤ) :
    Option InsightsDict :=
  match snapshot with
  | none => none
  | some cached =>
    let days_since := now - cached.analyzed_at
    if days_since > INSIGHTS_CACHE_DAYS then none
    else some { summary := cached.summary, insights := cached.insights
                upcoming := cached.upcoming, generated_at := cached.analyzed_at }

/-- Round half-to-even to an integer (Python `round`). -/
def roundHalfEven (q : ℚ) : ℤ :=
  let f := Int.floor q
  let r := q - f
  if r < 1 / 2 then f
  else if 1 / 2 < r then f + 1
  else if f % 2 = 0 then f else f + 1

/-- Python `round(q, prec)`. -/
def roundTo (q : ℚ) (prec : ℕ) : ℚ :=
  (roundHalfEven (q * (10 : ℚ) ^ prec) : ℚ) / (10 : ℚ) ^ prec

/-- Decimal rendering of a rational with `prec` fixed digits, modelling
the `:.2f` / `:.1f` format specifiers (binary-float rounding artefacts of
the source are abstracted away; no claim inspects message text). -/
def fmtFixed (q : ℚ) (prec : ℕ) : String :=
  let scaled := roundHalfEven (q * (10 : ℚ) ^ prec)
  let sign := if scaled < 0 then "-" else ""
  let a := scaled.natAbs
  let ip := a / 10 ^ prec
  let fp := a % 10 ^ prec
  let fpStr := toString fp
  let pad := String.mk (List.replicate (prec - fpStr.length) (Char.ofNat 48))
  sign ++ toString ip ++ "." ++ pad ++ fpStr

/-- Model of `by_category[cat] += monthly` on a `defaultdict(float)` kept as an
ordered association list. -/
def addCat (cat : String) (monthly : ℚ)
    : List (String × ℚ) → List (String × ℚ)
  | [] => [(cat, monthly)]
  | (c, v) :: rest =>
    if c = cat then (c, v + monthly) :: rest else (c, v) :: addCat cat monthly rest

/-- Python `max(items, key=value)`: first element of maximal value. -/
def maxByVal : List (String × ℚ) → String × ℚ
  | [] => ("", 0)
  | x :: xs => xs.foldl (fun b y => if b.2 < y.2 then y else b) x

/-- The `by_category` accumulation of `_generate_basic_insights`. -/
def basicByCategory (recurring_payments : List PayDict) : List (String × ℚ) :=
  recurring_payments.foldl
    (fun acc p => addCat p.category (calculate_monthly_amount p.typical_amount p.frequency) acc) []

/-- The `percentage` local of `_generate_basic_insights`. -/
def basicPercentage (total_monthly total_monthly_expenses : ℚ) : ℚ :=
  if 0 < total_monthly_expenses then total_monthly / total_monthly_expenses * 100 else 0

/-- The `insights` list built by `_generate_basic_insights`. -/
def basicInsightsList (recurring_payments : List PayDict)
    (total_monthly total_yearly total_monthly_expenses : ℚ) : List Insight :=
  [{ type := "cost_analysis", title := "Monthly Recurring Costs"
     message := "You spend $" ++ fmtFixed total_monthly 2 ++ "/month ($" ++
       fmtFixed total_yearly 2 ++ "/year) on " ++
       toString recurring_payments.length ++ " recurring payments"
     priority := "info" }]
  ++ (if 1 < (basicByCategory recurring_payments).length then
        [{ type := "cost_analysis"
           title := "Largest Category: " ++ (maxByVal (basicByCategory recurring_payments)).1
           message := "$" ++ fmtFixed (maxByVal (basicByCategory recurring_payments)).2 2 ++
             "/month goes to " ++ (maxByVal (basicByCategory recurring_payments)).1
           priority := "info" }]
      else [])
  ++ (if 5 ≤ basicPercentage total_monthly total_monthly_expenses then
        [{ type := "cost_analysis", title := "Expense Proportion"
           message := "Recurring payments make up " ++
             fmtFixed (basicPercentage total_monthly total_monthly_expenses) 1 ++
             "% of your monthly expenses"
           priority := if basicPercentage total_monthly total_monthly_expenses < 20
             then "info" else "warning" }]
      else [])

/-- The pre-sort `upcoming` accumulation of `_generate_basic_insights`. -/
def basicUpcoming (recurring_payments : List PayDict) (today : ℤ) : List UpEntry :=
  recurring_payments.filterMap (fun p =>
    match p.next_expected_date with
    | none => none
    | some next_date =>
      let days_until := next_date - today
      if 0 ≤ days_until ∧ days_until ≤ 14 then
        some { merchant := p.merchant_name, amount := p.typical_amount
               date := next_date, days_until := days_until }
      else none)

/-- Model of `_generate_basic_insights`: deterministic fallback insights.  The
recurring payments arrive as `_cache_to_dict`-shaped dictionaries. -/
def _generate_basic_insights (recurring_payments : List PayDict)
    (total_monthly total_yearly total_monthly_expenses : ℚ) (today now : ℤ) :
    InsightsDict :=
  { summary :=
      { total_monthly := roundTo total_monthly 2
        total_yearly := roundTo total_yearly 2
        count := recurring_payments.length
        percentage_of_expenses := roundTo (basicPercentage total_monthly total_monthly_expenses) 1
        by_category := (basicByCategory recurring_payments).map (fun kv => (kv.1, roundTo kv.2 2)) }
    insights := basicInsightsList recurring_payments total_monthly total_yearly
      total_monthly_expenses
    upcoming := (sortOn (fun e => e.days_until) (basicUpcoming recurring_payments today)).take 5
    generated_at := now }

/-! ### Helper lemmas: sorting -/

/-- A cache row with its `last_analyzed_at` bookkeeping field cleared;
two rows with the same `stripLA` image agree on every other field. -/
def stripLA (c : RecurringCache) : RecurringCache :=
  { c with last_analyzed_at := 0 }

theorem mem_insertSorted {α : Type} (key : α → ℤ) (x a : α) (l : List α) :
    a ∈ insertSorted key x l ↔ a = x ∨ a ∈ l := by
  induction l with
  | nil => simp [insertSorted]
  | cons y ys ih =>
    simp only [insertSorted]
    split
    · simp [or_comm, or_assoc, or_left_comm]
    · simp [ih, or_comm, or_assoc, or_left_comm]

theorem mem_sortOn {α : Type} (key : α → ℤ) (a : α) (l : List α) :
    a ∈ sortOn key l ↔ a ∈ l := by
  induction l with
  | nil => simp [sortOn]
  | cons x xs ih => simp [sortOn, mem_insertSorted, ih]

theorem pairwise_insertSorted {α : Type} (key : α → ℤ) (x : α) (l : List α)
    (h : l.Pairwise (fun a b => key a ≤ key b)) :
    (insertSorted key x l).Pairwise (fun a b => key a ≤ key b) := by
  induction l with
  | nil => simp [insertSorted]
  | cons y ys ih =>
    simp only [insertSorted]
    rcases List.pairwise_cons.mp h with ⟨hy, hys⟩
    split
    · rename_i hle
      refine List.pairwise_cons.mpr ⟨?_, h⟩
      intro b hb
      rcases List.mem_cons.mp hb with hb | hb
      · exact hb ▸ hle
      · exact le_trans hle (hy b hb)
    · rename_i hgt
      refine List.pairwise_cons.mpr ⟨?_, ih hys⟩
      intro b hb
      rcases (mem_insertSorted key x b ys).mp hb with hb | hb
      · exact hb ▸ le_of_not_le hgt
      · exact hy b hb

theorem pairwise_sortOn {α : Type} (key : α → ℤ) (l : List α) :
    (sortOn key l).Pairwise (fun a b => key a ≤ key b) := by
  induction l with
  | nil => simp [sortOn]
  | cons x xs ih => exact pairwise_insertSorted key x _ ih

/-! ### Helper lemmas: find?, replaceFirst, upsertInto -/

theorem replaceFirst_cons_pos {α : Type} {p : α → Bool} {a : α} (x : α)
    (as : List α) (h : p a = true) : replaceFirst p x (a :: as) = x :: as := by
  simp [replaceFirst, h]

theorem replaceFirst_cons_neg {α : Type} {p : α → Bool} {a : α} (x : α)
    (as : List α) (h : p a = false) :
    replaceFirst p x (a :: as) = a :: replaceFirst p x as := by
  simp [replaceFirst, h]

theorem find?_cons_pos {α : Type} {p : α → Bool} {a : α} (as : List α)
    (h : p a = true) : (a :: as).find? p = some a := by
  simp [List.find?, h]

theorem find?_cons_neg {α : Type} {p : α → Bool} {a : α} (as : List α)
    (h : p a = false) : (a :: as).find? p = as.find? p := by
  simp [List.find?, h]

theorem find?_replaceFirst_self {α : Type} (p : α → Bool) (x : α) (l : List α)
    (e : α) (hfind : l.find? p = some e) (hx : p x = true) :
    (replaceFirst p x l).find? p = some x := by
  induction l with
  | nil => simp [List.find?] at hfind
  | cons a as ih =>
    cases ha : p a with
    | true => rw [replaceFirst_cons_pos x as ha, find?_cons_pos as hx]
    | false =>
      rw [replaceFirst_cons_neg x as ha, find?_cons_neg _ ha]
      rw [find?_cons_neg _ ha] at hfind
      exact ih hfind

theorem find?_replaceFirst_other {α : Type} (p q : α → Bool) (x : α) (l : List α)
    (hpq : ∀ c, p c = true → q c = false) (hx : q x = false) :
    (replaceFirst p x l).find? q = l.find? q := by
  induction l with
  | nil => simp [replaceFirst]
  | cons a as ih =>
    cases ha : p a with
    | true =>
      rw [replaceFirst_cons_pos x as ha, find?_cons_neg _ hx, find?_cons_neg _ (hpq a ha)]
    | false =>
      rw [replaceFirst_cons_neg x as ha]
      cases hqa : q a with
      | true => rw [find?_cons_pos _ hqa, find?_cons_pos _ hqa]
      | false => rw [find?_cons_neg _ hqa, find?_cons_neg _ hqa]; exact ih

theorem find?_append_single {α : Type} (q : α → Bool) (x : α) (l : List α)
    (hx : q x = false) : (l ++ [x]).find? q = l.find? q := by
  induction l with
  | nil => simp [List.find?, hx]
  | cons a as ih =>
    rw [List.cons_append]
    cases hqa : q a with
    | true => rw [find?_cons_pos _ hqa, find?_cons_pos _ hqa]
    | false => rw [find?_cons_neg _ hqa, find?_cons_neg _ hqa]; exact ih

theorem map_replaceFirst_of_find? {α β : Type} (p : α → Bool) (f : α → β)
    (x e : α) (l : List α) (hfind : l.find? p = some e) (hfe : f x = f e) :
    (replaceFirst p x l).map f = l.map f := by
  induction l with
  | nil => simp [List.find?] at hfind
  | cons a as ih =>
    cases ha : p a with
    | true =>
      rw [find?_cons_pos _ ha] at hfind
      obtain rfl : a = e := by injection hfind
      rw [replaceFirst_cons_pos x as ha]
      simp [hfe]
    | false =>
      rw [find?_cons_neg _ ha] at hfind
      rw [replaceFirst_cons_neg x as ha]
      simp [ih hfind]

theorem find?_append_of_none {α : Type} (q : α → Bool) (x : α) (l : List α)
    (h : l.find? q = none) (hx : q x = true) : (l ++ [x]).find? q = some x := by
  induction l with
  | nil => simp [List.find?, hx]
  | cons a as ih =>
    cases hqa : q a with
    | true => rw [find?_cons_pos _ hqa] at h; exact absurd h (by simp)
    | false =>
      rw [find?_cons_neg _ hqa] at h
      rw [List.cons_append, find?_cons_neg _ hqa]
      exact ih h

theorem find?_congr_of_map_eq {α β : Type} (p : α → Bool) (f : α → β)
    (hp : ∀ c c', f c = f c' → p c = p c') :
    ∀ (l l' : List α), l.map f = l'.map f →
      Option.map f (l.find? p) = Option.map f (l'.find? p) := by
  intro l
  induction l with
  | nil =>
    intro l' h
    cases l' with
    | nil => rfl
    | cons b bs => simp at h
  | cons a as ih =>
    intro l' h
    cases l' with
    | nil => simp at h
    | cons b bs =>
      simp only [List.map_cons, List.cons.injEq] at h
      obtain ⟨hab, hrest⟩ := h
      have hpab : p a = p b := hp a b hab
      cases ha : p a with
      | true =>
        rw [find?_cons_pos _ ha, find?_cons_pos _ (hpab ▸ ha)]
        simp [hab]
      | false => rw [find?_cons_neg _ ha, find?_cons_neg _ (hpab ▸ ha)]; exact ih bs hrest

theorem map_replaceFirst_congr {α β : Type} (p : α → Bool) (f : α → β)
    (hp : ∀ c c', f c = f c' → p c = p c') (x : α) :
    ∀ (l l' : List α), l.map f = l'.map f →
      (replaceFirst p x l).map f = (replaceFirst p x l').map f := by
  intro l
  induction l with
  | nil =>
    intro l' h
    cases l' with
    | nil => rfl
    | cons b bs => simp at h
  | cons a as ih =>
    intro l' h
    cases l' with
    | nil => simp at h
    | cons b bs =>
      simp only [List.map_cons, List.cons.injEq] at h
      obtain ⟨hab, hrest⟩ := h
      have hpab : p a = p b := hp a b hab
      cases ha : p a with
      | true =>
        rw [replaceFirst_cons_pos x as ha, replaceFirst_cons_pos x bs (hpab ▸ ha)]
        simp [hab, hrest]
      | false =>
        rw [replaceFirst_cons_neg x as ha, replaceFirst_cons_neg x bs (hpab ▸ ha)]
        simp only [List.map_cons]
        rw [hab, ih bs hrest]

/-! ### Generic upsert-fold theory

Both `_process_ai_results` and `_algorithm_only_detection` walk a list of
items and, for some of them, upsert one cache row keyed by a merchant key.
`UpsertSpec` abstracts this shape: `key?` decides whether the item writes
(and at which key), `upd` / `fresh` are the update / create branches, both
parameterised by the `last_analyzed_at` timestamp `now`. -/

structure UpsertSpec (ι : Type) where
  key? : ι → Option String
  upd : ℤ → ι → RecurringCache → RecurringCache
  fresh : ℤ → ι → RecurringCache

/-- The store component of an upsert fold. -/
def storeRun {ι : Type} (S : UpsertSpec ι) (uid : ℕ) (now : ℤ) :
    List ι → List RecurringCache → List RecurringCache
  | [], st => st
  | i :: rest, st =>
    match S.key? i with
    | none => storeRun S uid now rest st
    | some k =>
      storeRun S uid now rest (upsertInto (keyMatch uid k) (S.upd now i) (S.fresh now i) st).2

/-- Laws the two concrete upsert folds satisfy (only required for items
that actually write, i.e. with `key? i = some k`). -/
structure LawfulUpsert {ι : Type} (S : UpsertSpec ι) (uid : ℕ) : Prop where
  upd_id : ∀ n i e, (S.upd n i e).user_id = e.user_id ∧
    (S.upd n i e).merchant_key = e.merchant_key
  fresh_match : ∀ n i k, S.key? i = some k → keyMatch uid k (S.fresh n i) = true
  upd_absorb : ∀ n1 n2 i k, S.key? i = some k → ∀ e,
    S.upd n2 i (S.upd n1 i e) = S.upd n2 i e
  upd_la : ∀ n1 n2 i k, S.key? i = some k → ∀ e,
    stripLA (S.upd n2 i e) = stripLA (S.upd n1 i e)
  fresh_stable : ∀ n1 n2 i k, S.key? i = some k →
    stripLA (S.upd n2 i (S.fresh n1 i)) = stripLA (S.fresh n1 i)
  upd_ext : ∀ n i k, S.key? i = some k → ∀ e e',
    stripLA e = stripLA e' → S.upd n i e = S.upd n i e'

theorem keyMatch_upd {ι : Type} {S : UpsertSpec ι} {uid : ℕ}
    (hL : LawfulUpsert S uid) (k : String) (n : ℤ) (i : ι) (e : RecurringCache) :
    keyMatch uid k (S.upd n i e) = keyMatch uid k e := by
  have h := hL.upd_id n i e
  simp [keyMatch, h.1, h.2]

theorem keyMatch_disjoint {uid : ℕ} {k k' : String} (hkk : k' ≠ k)
    (c : RecurringCache) (h : keyMatch uid k' c = true) : keyMatch uid k c = false := by
  simp only [keyMatch, Bool.and_eq_true, beq_iff_eq] at h
  simp [keyMatch, h.2, hkk]

theorem keyMatch_stripLA_congr {uid : ℕ} {k : String} (c c' : RecurringCache)
    (h : stripLA c = stripLA c') : keyMatch uid k c = keyMatch uid k c' := by
  cases c; cases c'
  simp only [stripLA, RecurringCache.mk.injEq] at h
  simp [keyMatch, h.1, h.2.1]

/-- An upsert at key `k'` does not disturb the first row matching a
different key `k`. -/
theorem find?_upsertInto_other {ι : Type} {S : UpsertSpec ι} {uid : ℕ}
    (hL : LawfulUpsert S uid) (k k' : String) (hkk : k' ≠ k) (n : ℤ) (i : ι)
    (hki : S.key? i = some k') (st : List RecurringCache) :
    ((upsertInto (keyMatch uid k') (S.upd n i) (S.fresh n i) st).2).find? (keyMatch uid k) =
      st.find? (keyMatch uid k) := by
  unfold upsertInto
  cases hf : st.find? (keyMatch uid k') with
  | some e =>
    have he : keyMatch uid k' e = true := List.find?_some hf
    refine find?_replaceFirst_other _ _ _ st (fun c hc => keyMatch_disjoint hkk c hc) ?_
    rw [keyMatch_upd hL]
    exact keyMatch_disjoint hkk e he
  | none =>
    exact find?_append_single _ _ st (keyMatch_disjoint hkk _ (hL.fresh_match n i k' hki))

/-- After an upsert at key `k`, the first row matching `k` is exactly the
written row. -/
theorem find?_upsertInto_self {ι : Type} {S : UpsertSpec ι} {uid : ℕ}
    (hL : LawfulUpsert S uid) (k : String) (n : ℤ) (i : ι)
    (hki : S.key? i = some k) (st : List RecurringCache) :
    ((upsertInto (keyMatch uid k) (S.upd n i) (S.fresh n i) st).2).find? (keyMatch uid k) =
      some (upsertInto (keyMatch uid k) (S.upd n i) (S.fresh n i) st).1 := by
  unfold upsertInto
  cases hf : st.find? (keyMatch uid k) with
  | some e =>
    have he : keyMatch uid k e = true := List.find?_some hf
    exact find?_replaceFirst_self _ _ st e hf (by rw [keyMatch_upd hL]; exact he)
  | none => exact find?_append_of_none _ _ st hf (hL.fresh_match n i k hki)

theorem storeRun_append {ι : Type} (S : UpsertSpec ι) (uid : ℕ) (now : ℤ)
    (l1 l2 : List ι) (st : List RecurringCache) :
    storeRun S uid now (l1 ++ l2) st = storeRun S uid now l2 (storeRun S uid now l1 st) := by
  induction l1 generalizing st with
  | nil => rfl
  | cons i rest ih =>
    cases hki : S.key? i with
    | none => simp only [List.cons_append, storeRun, hki]; exact ih _
    | some k => simp only [List.cons_append, storeRun, hki]; exact ih _

/-- A fold whose items never write at key `k` leaves the first `k`-row
untouched. -/
theorem find?_storeRun_notin {ι : Type} {S : UpsertSpec ι} {uid : ℕ}
    (hL : LawfulUpsert S uid) (k : String) (n : ℤ) (l : List ι)
    (hk : k ∉ l.filterMap S.key?) (st : List RecurringCache) :
    (storeRun S uid n l st).find? (keyMatch uid k) = st.find? (keyMatch uid k) := by
  induction l generalizing st with
  | nil => rfl
  | cons i rest ih =>
    cases hki : S.key? i with
    | none =>
      rw [List.filterMap_cons_none hki] at hk
      simp only [storeRun, hki]
      exact ih hk st
    | some k' =>
      rw [List.filterMap_cons_some hki] at hk
      simp only [List.mem_cons, not_or] at hk
      simp only [storeRun, hki]
      rw [ih hk.2, find?_upsertInto_other hL k k' (fun h => hk.1 h.symm) n i hki st]

/-- After a fold with pairwise-distinct write keys, the first row at the
key of a writing item `i` is exactly the row `i` wrote. -/
theorem find?_storeRun_mem {ι : Type} {S : UpsertSpec ι} {uid : ℕ}
    (hL : LawfulUpsert S uid) (n : ℤ) (l : List ι)
    (hnd : (l.filterMap S.key?).Nodup) (i : ι) (hmem : i ∈ l) (k : String)
    (hki : S.key? i = some k) (st : List RecurringCache) :
    (storeRun S uid n l st).find? (keyMatch uid k) =
      some (match st.find? (keyMatch uid k) with
            | some e => S.upd n i e
            | none => S.fresh n i) := by
  obtain ⟨l1, l2, rfl⟩ := List.append_of_mem hmem
  rw [List.filterMap_append, List.filterMap_cons_some hki] at hnd
  rw [List.nodup_append] at hnd
  obtain ⟨hnd1, hnd2, hdisj⟩ := hnd
  have hk1 : k ∉ l1.filterMap S.key? := fun h => hdisj h (List.mem_cons_self _ _)
  have hk2 : k ∉ l2.filterMap S.key? := (List.nodup_cons.mp hnd2).1
  rw [storeRun_append]
  have hstep : storeRun S uid n (i :: l2) (storeRun S uid n l1 st) =
      storeRun S uid n l2
        (upsertInto (keyMatch uid k) (S.upd n i) (S.fresh n i) (storeRun S uid n l1 st)).2 := by
    simp only [storeRun, hki]
  rw [hstep, find?_storeRun_notin hL k n l2 hk2]
  rw [find?_upsertInto_self hL k n i hki]
  unfold upsertInto
  rw [find?_storeRun_notin hL k n l1 hk1 st]
  cases hf : st.find? (keyMatch uid k) <;> simp [hf]

/-- The fold is congruent for pointwise equality up to `last_analyzed_at`. -/
theorem storeRun_congr {ι : Type} {S : UpsertSpec ι} {uid : ℕ}
    (hL : LawfulUpsert S uid) (n : ℤ) (l : List ι) :
    ∀ st st' : List RecurringCache, st.map stripLA = st'.map stripLA →
      (storeRun S uid n l st).map stripLA = (storeRun S uid n l st').map stripLA := by
  induction l with
  | nil => intro st st' h; exact h
  | cons i rest ih =>
    intro st st' h
    cases hki : S.key? i with
    | none => simp only [storeRun, hki]; exact ih st st' h
    | some k =>
      simp only [storeRun, hki]
      refine ih _ _ ?_
      have hfind := find?_congr_of_map_eq (keyMatch uid k) stripLA
        (fun c c' hcc => keyMatch_stripLA_congr c c' hcc) st st' h
      unfold upsertInto
      cases hf : st.find? (keyMatch uid k) with
      | none =>
        rw [hf] at hfind
        cases hf' : st'.find? (keyMatch uid k) with
        | none => simp [List.map_append, h]
        | some e' => rw [hf'] at hfind; simp [Option.map] at hfind
      | some e =>
        rw [hf] at hfind
        cases hf' : st'.find? (keyMatch uid k) with
        | none => rw [hf'] at hfind; simp [Option.map] at hfind
        | some e' =>
          rw [hf'] at hfind
          simp only [Option.map] at hfind
          have hee : stripLA e = stripLA e' := by injection hfind
          have hupd : S.upd n i e = S.upd n i e' := hL.upd_ext n i k hki e e' hee
          simp only
          rw [← hupd]
          exact map_replaceFirst_congr _ stripLA
            (fun c c' hcc => keyMatch_stripLA_congr c c' hcc) _ st st' h

/-- Replaying an upsert fold with pairwise-distinct write keys over its own
output changes nothing but `last_analyzed_at`. -/
theorem storeRun_replay {ι : Type} {S : UpsertSpec ι} {uid : ℕ}
    (hL : LawfulUpsert S uid) (n1 n2 : ℤ) (l : List ι)
    (hnd : (l.filterMap S.key?).Nodup) :
    ∀ st : List RecurringCache,
      (storeRun S uid n2 l (storeRun S uid n1 l st)).map stripLA =
        (storeRun S uid n1 l st).map stripLA := by
  induction l with
  | nil => intro st; rfl
  | cons i rest ih =>
    intro st
    cases hki : S.key? i with
    | none =>
      rw [List.filterMap_cons_none hki] at hnd
      simp only [storeRun, hki]
      exact ih hnd st
    | some k =>
      rw [List.filterMap_cons_some hki] at hnd
      have hk : k ∉ rest.filterMap S.key? := (List.nodup_cons.mp hnd).1
      have hnd2 : (rest.filterMap S.key?).Nodup := (List.nodup_cons.mp hnd).2
      simp only [storeRun, hki]
      set st1 := (upsertInto (keyMatch uid k) (S.upd n1 i) (S.fresh n1 i) st).2 with hst1
      set X := storeRun S uid n1 rest st1 with hX
      have hfind : X.find? (keyMatch uid k) =
          some (upsertInto (keyMatch uid k) (S.upd n1 i) (S.fresh n1 i) st).1 := by
        rw [hX, find?_storeRun_notin hL k n1 rest hk st1, hst1,
          find?_upsertInto_self hL k n1 i hki]
      set e1 := (upsertInto (keyMatch uid k) (S.upd n1 i) (S.fresh n1 i) st).1 with he1
      have hstrip : stripLA (S.upd n2 i e1) = stripLA e1 := by
        rw [he1]
        unfold upsertInto
        cases hf : st.find? (keyMatch uid k) with
        | some e =>
          simp only
          rw [hL.upd_absorb n1 n2 i k hki e]
          exact hL.upd_la n1 n2 i k hki e
        | none =>
          simp only
          exact hL.fresh_stable n1 n2 i k hki
      have hupsert : (upsertInto (keyMatch uid k) (S.upd n2 i) (S.fresh n2 i) X).2 =
          replaceFirst (keyMatch uid k) (S.upd n2 i e1) X := by
        unfold upsertInto
        rw [hfind]
      rw [hupsert]
      have hmapeq : (replaceFirst (keyMatch uid k) (S.upd n2 i e1) X).map stripLA =
          X.map stripLA :=
        map_replaceFirst_of_find? _ stripLA _ e1 X hfind hstrip
      calc (storeRun S uid n2 rest (replaceFirst (keyMatch uid k) (S.upd n2 i e1) X)).map stripLA
          = (storeRun S uid n2 rest X).map stripLA := storeRun_congr hL n2 rest _ X hmapeq
        _ = X.map stripLA := ih hnd2 st1

/-! ### The two concrete upsert folds as `UpsertSpec` instances -/

/-- Whether `_algorithm_only_detection` judges a merchant group recurring. -/
def algoDecision (m : MerchantInfo) : Bool :=
  (detect_frequency_from_interval m.stats.avg_interval_days).isSome &&
    decide (m.stats.amount_variance_pct < 20) && decide (2 ≤ m.stats.count)

/-- The fold of `_algorithm_only_detection` as an upsert spec. -/
def algoSpec (uid : ℕ) : UpsertSpec MerchantInfo :=
  { key? := fun m =>
      match detect_frequency_from_interval m.stats.avg_interval_days with
      | none => none
      | some _ =>
        if m.stats.amount_variance_pct < 20 ∧ 2 ≤ m.stats.count then some m.merchant_key
        else none
    upd := fun n m e =>
      match detect_frequency_from_interval m.stats.avg_interval_days with
      | none => e
      | some f => algoUpdate n m f e
    fresh := fun n m =>
      match detect_frequency_from_interval m.stats.avg_interval_days with
      | none => algoFresh uid n m ""
      | some f => algoFresh uid n m f }

/-- The fold of `_process_ai_results` as an upsert spec (for a fixed merchant list). -/
def aiSpec (uid : ℕ) (merchants : List MerchantInfo) : UpsertSpec Verdict :=
  { key? := fun v =>
      match keyOf v with
      | none => none
      | some k =>
        match merchants.find? (fun m => m.merchant_key == k) with
        | none => none
        | some _ => some k
    upd := fun n v e =>
      match keyOf v with
      | none => e
      | some k =>
        match merchants.find? (fun m => m.merchant_key == k) with
        | none => e
        | some m => aiUpdate n v m (v.is_recurring && v.same_transaction) e
    fresh := fun n v =>
      match keyOf v with
      | none => aiFresh uid n v (buildMerchant "" []) false ""
      | some k =>
        match merchants.find? (fun m => m.merchant_key == k) with
        | none => aiFresh uid n v (buildMerchant "" []) false ""
        | some m => aiFresh uid n v m (v.is_recurring && v.same_transaction) k }

theorem algoSpec_key_eq {uid : ℕ} {m : MerchantInfo} {k : String}
    (h : (algoSpec uid).key? m = some k) :
    ∃ f, detect_frequency_from_interval m.stats.avg_interval_days = some f ∧
      (m.stats.amount_variance_pct < 20 ∧ 2 ≤ m.stats.count) ∧ k = m.merchant_key := by
  simp only [algoSpec] at h
  cases hf : detect_frequency_from_interval m.stats.avg_interval_days with
  | none => rw [hf] at h; exact absurd h (by simp)
  | some f =>
    rw [hf] at h
    by_cases hc : m.stats.amount_variance_pct < 20 ∧ 2 ≤ m.stats.count
    · rw [if_pos hc] at h
      exact ⟨f, rfl, hc, (Option.some.injEq _ _ ▸ h).symm⟩
    · rw [if_neg hc] at h; exact absurd h (by simp)

theorem aiSpec_key_eq {uid : ℕ} {merchants : List MerchantInfo} {v : Verdict}
    {k : String} (h : (aiSpec uid merchants).key? v = some k) :
    keyOf v = some k ∧ ∃ m, merchants.find? (fun x => x.merchant_key == k) = some m := by
  simp only [aiSpec] at h
  cases hk : keyOf v with
  | none => simp [hk] at h
  | some k0 =>
    simp only [hk] at h
    cases hm : merchants.find? (fun m => m.merchant_key == k0) with
    | none => simp [hm] at h
    | some m =>
      simp only [hm] at h
      have hkk : k0 = k := by injection h
      subst hkk
      exact ⟨rfl, m, hm⟩

theorem stripLA_fields {e e' : RecurringCache} (h : stripLA e = stripLA e') :
    e.user_id = e'.user_id ∧ e.merchant_key = e'.merchant_key ∧
    e.merchant_name = e'.merchant_name ∧ e.is_recurring = e'.is_recurring ∧
    e.frequency = e'.frequency ∧ e.typical_amount = e'.typical_amount ∧
    e.amount_variance = e'.amount_variance ∧ e.confidence = e'.confidence ∧
    e.category = e'.category ∧ e.transaction_count = e'.transaction_count ∧
    e.first_transaction_date = e'.first_transaction_date ∧
    e.last_transaction_date = e'.last_transaction_date ∧
    e.next_expected_date = e'.next_expected_date ∧ e.ai_verified = e'.ai_verified ∧
    e.ai_notes = e'.ai_notes ∧ e.created_at = e'.created_at := by
  cases e; cases e'
  simp only [stripLA, RecurringCache.mk.injEq] at h
  simp_all

theorem algoSpec_lawful (uid : ℕ) : LawfulUpsert (algoSpec uid) uid := by
  constructor
  · intro n m e
    simp only [algoSpec]
    cases hf : detect_frequency_from_interval m.stats.avg_interval_days with
    | none => exact ⟨rfl, rfl⟩
    | some f => exact ⟨rfl, rfl⟩
  · intro n m k hk
    obtain ⟨f, hf, _, rfl⟩ := algoSpec_key_eq hk
    simp only [algoSpec, hf]
    simp [keyMatch, algoFresh]
  · intro n1 n2 m k hk e
    obtain ⟨f, hf, _, _⟩ := algoSpec_key_eq hk
    simp only [algoSpec, hf]
    rfl
  · intro n1 n2 m k hk e
    obtain ⟨f, hf, _, _⟩ := algoSpec_key_eq hk
    simp only [algoSpec, hf]
    rfl
  · intro n1 n2 m k hk
    obtain ⟨f, hf, _, _⟩ := algoSpec_key_eq hk
    simp only [algoSpec, hf]
    rfl
  · intro n m k hk e e' hee
    obtain ⟨f, hf, _, _⟩ := algoSpec_key_eq hk
    simp only [algoSpec, hf]
    obtain ⟨h1, h2, h3, h4, h5, h6, h7, h8, h9, h10, h11, h12, h13, h14, h15, h16⟩ :=
      stripLA_fields hee
    simp only [algoUpdate, h1, h2, h3, h9, h15, h16]

theorem aiSpec_lawful (uid : ℕ) (merchants : List MerchantInfo) :
    LawfulUpsert (aiSpec uid merchants) uid := by
  constructor
  · intro n v e
    simp only [aiSpec]
    cases hk : keyOf v with
    | none => exact ⟨rfl, rfl⟩
    | some k0 =>
      cases hm : merchants.find? (fun m => m.merchant_key == k0) with
      | none => simp [hm]
      | some m => simp [hm, aiUpdate]
  · intro n v k hk
    obtain ⟨hk0, m, hm⟩ := aiSpec_key_eq hk
    simp only [aiSpec, hk0, hm]
    simp [keyMatch, aiFresh]
  · intro n1 n2 v k hk e
    obtain ⟨hk0, m, hm⟩ := aiSpec_key_eq hk
    simp only [aiSpec, hk0, hm]
    simp only [aiUpdate]
    cases hv : v.next_expected_date <;>
      cases hte : m.transactions.isEmpty <;> simp [hv, hte]
  · intro n1 n2 v k hk e
    obtain ⟨hk0, m, hm⟩ := aiSpec_key_eq hk
    simp only [aiSpec, hk0, hm]
    simp only [aiUpdate, stripLA]
  · intro n1 n2 v k hk
    obtain ⟨hk0, m, hm⟩ := aiSpec_key_eq hk
    simp only [aiSpec, hk0, hm]
    simp only [aiUpdate, aiFresh, stripLA]
    cases hv : v.next_expected_date <;>
      cases hte : m.transactions.isEmpty <;> simp [hv, hte]
  · intro n v k hk e e' hee
    obtain ⟨hk0, m, hm⟩ := aiSpec_key_eq hk
    simp only [aiSpec, hk0, hm]
    obtain ⟨h1, h2, h3, h4, h5, h6, h7, h8, h9, h10, h11, h12, h13, h14, h15, h16⟩ :=
      stripLA_fields hee
    simp only [aiUpdate, h1, h2, h11, h12, h13, h16]

/-- The store component of `_algorithm_only_detection` is the `algoSpec`
upsert fold. -/
theorem algo_store_eq (ms : List MerchantInfo) (uid : ℕ) (now : ℤ) :
    ∀ store, (_algorithm_only_detection ms uid now store).2 =
      storeRun (algoSpec uid) uid now ms store := by
  induction ms with
  | nil => intro store; rfl
  | cons m rest ih =>
    intro store
    simp only [_algorithm_only_detection, storeRun]
    cases hf : detect_frequency_from_interval m.stats.avg_interval_days with
    | none =>
      simp only [algoSpec, hf]
      exact ih store
    | some f =>
      by_cases hc : m.stats.amount_variance_pct < 20 ∧ 2 ≤ m.stats.count
      · simp only [algoSpec, hf, if_pos hc]
        exact ih _
      · simp only [algoSpec, hf, if_neg hc]
        exact ih store

/-- The store component of `_process_ai_results` is the `aiSpec` upsert
fold. -/
theorem ai_store_eq (vs : List Verdict) (ms : List MerchantInfo) (uid : ℕ) (now : ℤ) :
    ∀ store, (_process_ai_results vs ms uid now store).2 =
      storeRun (aiSpec uid ms) uid now vs store := by
  induction vs with
  | nil => intro store; rfl
  | cons v rest ih =>
    intro store
    simp only [_process_ai_results, storeRun]
    cases hk : keyOf v with
    | none =>
      simp only [aiSpec, hk]
      exact ih store
    | some k =>
      cases hm : ms.find? (fun m => m.merchant_key == k) with
      | none =>
        simp only [aiSpec, hk, hm]
        exact ih store
      | some m =>
        simp only [aiSpec, hk, hm]
        exact ih _

/-- No frequency bucket label is the empty string. -/
theorem freq_ne_empty {d : ℚ} {f : String}
    (h : detect_frequency_from_interval d = some f) : f ≠ "" := by
  unfold detect_frequency_from_interval at h
  split_ifs at h
  all_goals first
    | exact Option.noConfusion h
    | (injection h with h; intro hf; rw [hf] at h; exact absurd h (by decide))

/-- Fields of the row written by one algorithm-only upsert. -/
theorem algo_entry_fields (uid : ℕ) (now : ℤ) (m : MerchantInfo) (f : String)
    (store : List RecurringCache) :
    ((upsertInto (keyMatch uid m.merchant_key) (algoUpdate now m f)
        (algoFresh uid now m f) store).1).merchant_key = m.merchant_key ∧
    ((upsertInto (keyMatch uid m.merchant_key) (algoUpdate now m f)
        (algoFresh uid now m f) store).1).is_recurring = true ∧
    ((upsertInto (keyMatch uid m.merchant_key) (algoUpdate now m f)
        (algoFresh uid now m f) store).1).frequency = some f ∧
    ((upsertInto (keyMatch uid m.merchant_key) (algoUpdate now m f)
        (algoFresh uid now m f) store).1).confidence = some "medium" ∧
    ((upsertInto (keyMatch uid m.merchant_key) (algoUpdate now m f)
        (algoFresh uid now m f) store).1).ai_verified = false := by
  unfold upsertInto
  cases hfind : store.find? (keyMatch uid m.merchant_key) with
  | some e =>
    have he := List.find?_some hfind
    simp only [keyMatch, Bool.and_eq_true, beq_iff_eq] at he
    simp [algoUpdate, he.2]
  | none => simp [algoFresh]

/-- Every dictionary returned by `_algorithm_only_detection` stems from a
merchant that passed the recurring test, and carries that merchant's key,
frequency and the fixed "medium" confidence. -/
theorem algo_payments_sound (uid : ℕ) (now : ℤ) (ms : List MerchantInfo) :
    ∀ store d, d ∈ (_algorithm_only_detection ms uid now store).1 →
      ∃ m ∈ ms, ∃ f, detect_frequency_from_interval m.stats.avg_interval_days = some f ∧
        m.stats.amount_variance_pct < 20 ∧ 2 ≤ m.stats.count ∧
        d.merchant_key = m.merchant_key ∧ d.frequency = f ∧ d.confidence = "medium" := by
  induction ms with
  | nil => intro store d hd; simp [_algorithm_only_detection] at hd
  | cons m rest ih =>
    intro store d hd
    simp only [_algorithm_only_detection] at hd
    cases hf : detect_frequency_from_interval m.stats.avg_interval_days with
    | none =>
      simp only [hf] at hd
      obtain ⟨m0, hm0, rest0⟩ := ih store d hd
      exact ⟨m0, List.mem_cons_of_mem m hm0, rest0⟩
    | some f =>
      simp only [hf] at hd
      by_cases hc : m.stats.amount_variance_pct < 20 ∧ 2 ≤ m.stats.count
      · rw [if_pos hc] at hd
        rcases List.mem_cons.mp hd with hd | hd
        · obtain ⟨hkey, hrec, hfreq, hconf, hai⟩ := algo_entry_fields uid now m f store
          refine ⟨m, List.mem_cons_self m rest, f, hf, hc.1, hc.2, ?_, ?_, ?_⟩
          · rw [hd]; simp [_cache_to_dict, hkey]
          · rw [hd]; simp [_cache_to_dict, hfreq, strOr, freq_ne_empty hf]
          · rw [hd]; simp [_cache_to_dict, hconf, strOr]
        · obtain ⟨m0, hm0, rest0⟩ := ih _ d hd
          exact ⟨m0, List.mem_cons_of_mem m hm0, rest0⟩
      · simp only [if_neg hc] at hd
        obtain ⟨m0, hm0, rest0⟩ := ih store d hd
        exact ⟨m0, List.mem_cons_of_mem m hm0, rest0⟩

/-- Every merchant that passes the recurring test contributes a dictionary
with its key, frequency and "medium" confidence to the returned list. -/
theorem algo_payments_complete (uid : ℕ) (now : ℤ) (ms : List MerchantInfo)
    (m : MerchantInfo) (hm : m ∈ ms) (f : String)
    (hf : detect_frequency_from_interval m.stats.avg_interval_days = some f)
    (hvar : m.stats.amount_variance_pct < 20) (hcnt : 2 ≤ m.stats.count) :
    ∀ store, ∃ d ∈ (_algorithm_only_detection ms uid now store).1,
      d.merchant_key = m.merchant_key ∧ d.frequency = f ∧ d.confidence = "medium" := by
  induction ms with
  | nil => cases hm
  | cons m0 rest ih =>
    intro store
    have hc : m.stats.amount_variance_pct < 20 ∧ 2 ≤ m.stats.count := ⟨hvar, hcnt⟩
    rcases List.mem_cons.mp hm with hm0 | hmr
    · subst hm0
      simp only [_algorithm_only_detection, hf, if_pos hc]
      obtain ⟨hkey, hrec, hfreq, hconf, hai⟩ := algo_entry_fields uid now m f store
      refine ⟨_, List.mem_cons_self _ _, ?_, ?_, ?_⟩
      · simp [_cache_to_dict, hkey]
      · simp [_cache_to_dict, hfreq, strOr, freq_ne_empty hf]
      · simp [_cache_to_dict, hconf, strOr]
    · simp only [_algorithm_only_detection]
      cases hf0 : detect_frequency_from_interval m0.stats.avg_interval_days with
      | none =>
        simp only [hf0]
        exact ih hmr store
      | some f0 =>
        simp only [hf0]
        by_cases hc0 : m0.stats.amount_variance_pct < 20 ∧ 2 ≤ m0.stats.count
        · rw [if_pos hc0]
          obtain ⟨d, hd, hdp⟩ := ih hmr
            (upsertInto (keyMatch uid m0.merchant_key) (algoUpdate now m0 f0)
              (algoFresh uid now m0 f0) store).2
          exact ⟨d, List.mem_cons_of_mem _ hd, hdp⟩
        · rw [if_neg hc0]
          exact ih hmr store

/-! ### Distinctness of merchant keys -/

theorem groupInsert_keys (k : String) (t : Transaction) :
    ∀ acc : List (String × List Transaction),
      (groupInsert k t acc).map Prod.fst =
        if k ∈ acc.map Prod.fst then acc.map Prod.fst else acc.map Prod.fst ++ [k] := by
  intro acc
  induction acc with
  | nil => simp [groupInsert]
  | cons p rest ih =>
    obtain ⟨k0, ts⟩ := p
    by_cases hk : k0 = k
    · subst hk
      simp [groupInsert]
    · simp only [groupInsert, if_neg hk, List.map_cons, ih]
      by_cases hmem : k ∈ rest.map Prod.fst
      · have : k ∈ k0 :: rest.map Prod.fst := List.mem_cons_of_mem _ hmem
        simp [hmem, this]
      · have : k ∉ k0 :: rest.map Prod.fst := by
          simp only [List.mem_cons, not_or]
          exact ⟨fun h => hk h.symm, hmem⟩
        simp [hmem, this]

theorem nodup_keys_groupInsert (k : String) (t : Transaction)
    (acc : List (String × List Transaction)) (h : (acc.map Prod.fst).Nodup) :
    ((groupInsert k t acc).map Prod.fst).Nodup := by
  rw [groupInsert_keys]
  split
  · exact h
  · rename_i hmem
    rw [List.nodup_append]
    exact ⟨h, List.nodup_singleton k, fun a ha hb => hmem ((List.mem_singleton.mp hb) ▸ ha)⟩

theorem nodup_keys_groupByMerchant (txns : List Transaction) :
    ((groupByMerchant txns).map Prod.fst).Nodup := by
  suffices h : ∀ (l : List Transaction) (acc : List (String × List Transaction)),
      (acc.map Prod.fst).Nodup →
      ((l.foldl (fun acc t => groupInsert t.merchant_key t acc) acc).map Prod.fst).Nodup by
    exact h txns [] (by simp)
  intro l
  induction l with
  | nil => intro acc h; exact h
  | cons t rest ih =>
    intro acc h
    exact ih _ (nodup_keys_groupInsert _ _ _ h)

theorem nodup_filterMap_of_nodup_map {α : Type} (f : α → String) (g : α → Option String)
    (hg : ∀ a k, g a = some k → k = f a) (l : List α) (h : (l.map f).Nodup) :
    (l.filterMap g).Nodup := by
  induction l with
  | nil => simp
  | cons a rest ih =>
    simp only [List.map_cons, List.nodup_cons] at h
    cases hga : g a with
    | none => rw [List.filterMap_cons_none hga]; exact ih h.2
    | some k =>
      rw [List.filterMap_cons_some hga]
      refine List.nodup_cons.mpr ⟨?_, ih h.2⟩
      intro hk
      obtain ⟨b, hb, hgb⟩ := List.mem_filterMap.mp hk
      have hbk : k = f b := hg b k hgb
      have hka : k = f a := hg a k hga
      exact h.1 (hka ▸ hbk ▸ List.mem_map_of_mem f hb)

theorem nodup_filterMap_mono {α : Type} (f g : α → Option String)
    (hfg : ∀ a k, g a = some k → f a = some k) (l : List α)
    (hf : (l.filterMap f).Nodup) : (l.filterMap g).Nodup := by
  induction l with
  | nil => simp
  | cons a rest ih =>
    have hrest : (rest.filterMap f).Nodup := by
      cases hfa : f a with
      | none => rw [List.filterMap_cons_none hfa] at hf; exact hf
      | some k => rw [List.filterMap_cons_some hfa] at hf; exact (List.nodup_cons.mp hf).2
    cases hga : g a with
    | none => rw [List.filterMap_cons_none hga]; exact ih hrest
    | some k =>
      rw [List.filterMap_cons_some hga]
      refine List.nodup_cons.mpr ⟨?_, ih hrest⟩
      intro hk
      obtain ⟨b, hb, hgb⟩ := List.mem_filterMap.mp hk
      have hfa : f a = some k := hfg a k hga
      rw [List.filterMap_cons_some hfa] at hf
      exact (List.nodup_cons.mp hf).1
        (List.mem_filterMap.mpr ⟨b, hb, hfg b k hgb⟩)

theorem filterMap_nodup_inj {α : Type} (f : α → Option String) :
    ∀ (l : List α), (l.filterMap f).Nodup → ∀ a b : α, a ∈ l → b ∈ l →
      ∀ k, f a = some k → f b = some k → a = b := by
  intro l
  induction l with
  | nil => intro _ a b ha; cases ha
  | cons x t ih =>
    intro hnd a b ha hb k hfa hfb
    cases hfx : f x with
    | none =>
      rw [List.filterMap_cons_none hfx] at hnd
      have ha' : a ∈ t := by
        rcases List.mem_cons.mp ha with h | h
        · subst h; rw [hfx] at hfa; cases hfa
        · exact h
      have hb' : b ∈ t := by
        rcases List.mem_cons.mp hb with h | h
        · subst h; rw [hfx] at hfb; cases hfb
        · exact h
      exact ih hnd a b ha' hb' k hfa hfb
    | some kx =>
      rw [List.filterMap_cons_some hfx] at hnd
      obtain ⟨hnotin, hnd'⟩ := List.nodup_cons.mp hnd
      rcases List.mem_cons.mp ha with ha' | ha' <;> rcases List.mem_cons.mp hb with hb' | hb'
      · rw [ha', hb']
      · subst ha'
        rw [hfx] at hfa
        have : kx = k := by injection hfa
        subst this
        exact absurd (List.mem_filterMap.mpr ⟨b, hb', hfb⟩) hnotin
      · subst hb'
        rw [hfx] at hfb
        have : kx = k := by injection hfb
        subst this
        exact absurd (List.mem_filterMap.mpr ⟨a, ha', hfa⟩) hnotin
      · exact ih hnd' a b ha' hb' k hfa hfb

/-! ### AI payments characterisation -/

/-- Fields of the row written by one AI upsert. -/
theorem ai_entry_fields (uid : ℕ) (now : ℤ) (v : Verdict) (m : MerchantInfo)
    (isRec : Bool) (k : String) (store : List RecurringCache) :
    ((upsertInto (keyMatch uid k) (aiUpdate now v m isRec)
        (aiFresh uid now v m isRec k) store).1).merchant_key = k ∧
    ((upsertInto (keyMatch uid k) (aiUpdate now v m isRec)
        (aiFresh uid now v m isRec k) store).1).is_recurring = isRec := by
  unfold upsertInto
  cases hfind : store.find? (keyMatch uid k) with
  | some e =>
    have he := List.find?_some hfind
    simp only [keyMatch, Bool.and_eq_true, beq_iff_eq] at he
    simp [aiUpdate, he.2]
  | none => simp [aiFresh]

/-- Every dictionary returned by `_process_ai_results` stems from a
verdict whose final `is_recurring` (both flags) is true, and carries that
verdict's merchant key. -/
theorem ai_payments_sound (uid : ℕ) (now : ℤ) (ms : List MerchantInfo)
    (vs : List Verdict) :
    ∀ store d, d ∈ (_process_ai_results vs ms uid now store).1 →
      ∃ v ∈ vs, ∃ k m, keyOf v = some k ∧
        ms.find? (fun x => x.merchant_key == k) = some m ∧
        (v.is_recurring && v.same_transaction) = true ∧ d.merchant_key = k := by
  induction vs with
  | nil => intro store d hd; simp [_process_ai_results] at hd
  | cons v rest ih =>
    intro store d hd
    simp only [_process_ai_results] at hd
    cases hk : keyOf v with
    | none =>
      simp only [hk] at hd
      obtain ⟨v0, hv0, rest0⟩ := ih store d hd
      exact ⟨v0, List.mem_cons_of_mem v hv0, rest0⟩
    | some k =>
      simp only [hk] at hd
      cases hm : ms.find? (fun x => x.merchant_key == k) with
      | none =>
        simp only [hm] at hd
        obtain ⟨v0, hv0, rest0⟩ := ih store d hd
        exact ⟨v0, List.mem_cons_of_mem v hv0, rest0⟩
      | some m =>
        simp only [hm] at hd
        cases hrec : v.is_recurring && v.same_transaction with
        | true =>
          rw [hrec] at hd
          rcases List.mem_cons.mp hd with hd | hd
          · obtain ⟨hkey, _⟩ := ai_entry_fields uid now v m true k store
            refine ⟨v, List.mem_cons_self v rest, k, m, hk, hm, hrec, ?_⟩
            rw [hd]
            simp [_cache_to_dict, hkey]
          · obtain ⟨v0, hv0, rest0⟩ := ih _ d hd
            exact ⟨v0, List.mem_cons_of_mem v hv0, rest0⟩
        | false =>
          simp only [hrec, Bool.false_eq_true, if_false, List.nil_append] at hd
          obtain ⟨v0, hv0, rest0⟩ := ih _ d hd
          exact ⟨v0, List.mem_cons_of_mem v hv0, rest0⟩

/-! ### Claim theorems -/

/-- C1: for every average-interval value `d`, `classifyFrequency`
(`detect_frequency_from_interval`) returns "weekly" iff `5 ≤ d ≤ 9`,
"bi-weekly" iff `12 ≤ d ≤ 17`, "monthly" iff `26 ≤ d ≤ 35`, "quarterly"
iff `85 ≤ d ≤ 100`, "yearly" iff `350 ≤ d ≤ 380`, and `none` for every
value outside the five ranges (in particular 0, 4, 10, 18, 36, 101, 381). -/
theorem c1_classify_frequency_ranges (d : ℚ) :
    (detect_frequency_from_interval d = some "weekly" ↔ 5 ≤ d ∧ d ≤ 9) ∧
    (detect_frequency_from_interval d = some "bi-weekly" ↔ 12 ≤ d ∧ d ≤ 17) ∧
    (detect_frequency_from_interval d = some "monthly" ↔ 26 ≤ d ∧ d ≤ 35) ∧
    (detect_frequency_from_interval d = some "quarterly" ↔ 85 ≤ d ∧ d ≤ 100) ∧
    (detect_frequency_from_interval d = some "yearly" ↔ 350 ≤ d ∧ d ≤ 380) ∧
    (detect_frequency_from_interval d = none ↔
      ¬((5 ≤ d ∧ d ≤ 9) ∨ (12 ≤ d ∧ d ≤ 17) ∨ (26 ≤ d ∧ d ≤ 35) ∨
        (85 ≤ d ∧ d ≤ 100) ∨ (350 ≤ d ∧ d ≤ 380))) := by
  unfold detect_frequency_from_interval
  split_ifs with h0 h1 h2 h3 h4 h5 <;>
    refine ⟨?_, ?_, ?_, ?_, ?_, ?_⟩ <;>
    simp_all <;>
    first
      | (intro h; linarith)
      | (refine ⟨?_, ?_, ?_, ?_, ?_⟩ <;> intro h <;> linarith)

/-- C7: `getCached` (`get_cached_insights`) returns `None` when no
snapshot is stored and when the stored snapshot is more than 30 days old,
and returns the stored snapshot unchanged when it is at most 30 days old. -/
theorem c7_insights_staleness (s : Option InsightsSnapshot) (now : ℤ) :
    (get_cached_insights none now = none) ∧
    (∀ c, s = some c → 30 < now - c.analyzed_at → get_cached_insights s now = none) ∧
    (∀ c, s = some c → now - c.analyzed_at ≤ 30 →
      get_cached_insights s now =
        some { summary := c.summary, insights := c.insights, upcoming := c.upcoming
               generated_at := c.analyzed_at }) := by
  refine ⟨rfl, ?_, ?_⟩
  · intro c hs hage
    subst hs
    simp only [get_cached_insights, INSIGHTS_CACHE_DAYS]
    rw [if_pos hage]
  · intro c hs hage
    subst hs
    simp only [get_cached_insights, INSIGHTS_CACHE_DAYS]
    rw [if_neg (not_lt.mpr hage)]

/-- Concrete snapshot for the C7 witness. -/
def c7Snap : InsightsSnapshot :=
  { user_id := 1
    summary := { total_monthly := 0, total_yearly := 0, count := 0
                 percentage_of_expenses := 0, by_category := [] }
    insights := []
    upcoming := []
    created_at := 0
    analyzed_at := 0 }

/-- Witness for C7: a snapshot 31 days old is treated as absent, one 29
days old is returned as-is. -/
theorem c7_insights_staleness_witness :
    get_cached_insights (some c7Snap) 31 = none ∧
    get_cached_insights (some c7Snap) 29 =
      some { summary := c7Snap.summary, insights := c7Snap.insights
             upcoming := c7Snap.upcoming, generated_at := c7Snap.analyzed_at } :=
  ⟨(c7_insights_staleness (some c7Snap) 31).2.1 c7Snap rfl (by decide),
   (c7_insights_staleness (some c7Snap) 29).2.2 c7Snap rfl (by decide)⟩

/-- C10: every entry returned by `get_upcoming_payments` comes from a
stored row of this user with `is_recurring=true`, `category ≠ "Income"`
and a non-null `next_expected_date` between `today` and `today + days`
(so `days_until` lies in `[0, days]`), and the returned list is sorted
ascending by expected date. -/
theorem c10_upcoming_sound_sorted (uid : ℕ) (store : List RecurringCache)
    (days today : ℤ) :
    (∀ e ∈ get_upcoming_payments uid store days today,
      ∃ c ∈ store, c.user_id = uid ∧ c.is_recurring = true ∧
        catNotIncome c.category = true ∧ ∃ dte, c.next_expected_date = some dte ∧
          today ≤ dte ∧ dte ≤ today + days ∧ e.expected_date = dte ∧
          e.days_until = dte - today ∧ 0 ≤ e.days_until ∧ e.days_until ≤ days) ∧
    (get_upcoming_payments uid store days today).Pairwise
      (fun a b => a.expected_date ≤ b.expected_date) := by
  constructor
  · intro e he
    simp only [get_upcoming_payments, List.mem_map] at he
    obtain ⟨c, hc, rfl⟩ := he
    rw [mem_sortOn] at hc
    have hmem := List.mem_of_mem_filter hc
    have hp := List.of_mem_filter hc
    simp only [Bool.and_eq_true, beq_iff_eq] at hp
    obtain ⟨⟨⟨huid, hrec⟩, hcat⟩, hnext⟩ := hp
    cases hdte : c.next_expected_date with
    | none => rw [hdte] at hnext; simp at hnext
    | some dte =>
      rw [hdte] at hnext
      simp only [Bool.and_eq_true, decide_eq_true_eq] at hnext
      refine ⟨c, hmem, huid, hrec, hcat, dte, hdte, hnext.1, hnext.2, ?_, ?_, ?_, ?_⟩
      · simp [hdte]
      · simp [hdte]
      · simp [hdte]; omega
      · simp [hdte]; omega
  · rw [get_upcoming_payments]
    refine List.pairwise_map.mpr ?_
    exact pairwise_sortOn _ _

/-- Concrete store row for the C10 witness. -/
def c10Row : RecurringCache :=
  { user_id := 1
    merchant_key := "SPOTIFY"
    merchant_name := some "SPOTIFY"
    is_recurring := true
    frequency := some "monthly"
    typical_amount := some 10
    amount_variance := some "fixed"
    confidence := some "medium"
    category := some "Music"
    transaction_count := some 3
    first_transaction_date := some (-60)
    last_transaction_date := some (-25)
    next_expected_date := some 5
    ai_verified := false
    ai_notes := some "Detected by algorithm"
    created_at := 0
    last_analyzed_at := 0 }

/-- The entry `get_upcoming_payments` produces for `c10Row`. -/
def c10Entry : UpcomingPayment :=
  { merchant_key := "SPOTIFY", merchant_name := "SPOTIFY", amount := 10
    expected_date := 5, days_until := 5 }

/-- Witness for C10 at a concrete store. -/
theorem largest_title_ne (s : String) :
    "Largest Category: " ++ s ≠ "Expense Proportion" := by
  intro h
  have hlen := congrArg String.length h
  have h18 : ("Largest Category: ").length = 18 := by decide
  have h18b : ("Expense Proportion").length = 18 := by decide
  rw [String.length_append, h18, h18b] at hlen
  have hs : s.length = 0 := by omega
  have hse : s = "" := by
    cases s with
    | mk data =>
      cases data with
      | nil => rfl
      | cons c cs => simp [String.length] at hs
  subst hse
  exact absurd h (by decide)

/-- C8: the deterministic basic-insights fallback includes a
proportion-of-expenses insight iff the recurring share of monthly
expenses is at least 5%, and its upcoming list contains only payments
whose next expected date is 0 to 14 days from today, sorted ascending by
days-until, with at most 5 entries. -/
theorem c8_basic_insights (payments : List PayDict) (tm ty te : ℚ) (today now : ℤ)
    (_hne : payments ≠ []) :
    ((∃ i ∈ (_generate_basic_insights payments tm ty te today now).insights,
        i.title = "Expense Proportion") ↔ 5 ≤ basicPercentage tm te) ∧
    (∀ e ∈ (_generate_basic_insights payments tm ty te today now).upcoming,
      ∃ p ∈ payments, p.next_expected_date = some e.date ∧ e.merchant = p.merchant_name ∧
        e.amount = p.typical_amount ∧ e.days_until = e.date - today ∧
        0 ≤ e.days_until ∧ e.days_until ≤ 14) ∧
    (_generate_basic_insights payments tm ty te today now).upcoming.Pairwise
      (fun a b => a.days_until ≤ b.days_until) ∧
    (_generate_basic_insights payments tm ty te today now).upcoming.length ≤ 5 := by
  have hins : (_generate_basic_insights payments tm ty te today now).insights =
    basicInsightsList payments tm ty te := rfl
  have hupc : (_generate_basic_insights payments tm ty te today now).upcoming =
    (sortOn (fun e => e.days_until) (basicUpcoming payments today)).take 5 := rfl
  refine ⟨?_, ?_, ?_, ?_⟩
  · rw [hins]
    unfold basicInsightsList
    constructor
    · rintro ⟨i, hi, htitle⟩
      rcases List.mem_append.mp hi with hi | hi
      · rcases List.mem_append.mp hi with hi | hi
        · simp only [List.mem_singleton] at hi
          rw [hi] at htitle
          simp at htitle
        · by_cases hcond : 1 < (basicByCategory payments).length
          · rw [if_pos hcond] at hi
            simp only [List.mem_singleton] at hi
            rw [hi] at htitle
            exact absurd htitle (largest_title_ne _)
          · rw [if_neg hcond] at hi
            cases hi
      · by_cases hcond : 5 ≤ basicPercentage tm te
        · exact hcond
        · rw [if_neg hcond] at hi
          cases hi
    · intro hpct
      refine ⟨{ type := "cost_analysis", title := "Expense Proportion"
                message := "Recurring payments make up " ++
                  fmtFixed (basicPercentage tm te) 1 ++ "% of your monthly expenses"
                priority := if basicPercentage tm te < 20 then "info" else "warning" },
              List.mem_append.mpr (Or.inr ?_), rfl⟩
      rw [if_pos hpct]
      exact List.mem_singleton.mpr rfl
  · rw [hupc]
    intro e he
    have he2 : e ∈ sortOn (fun e => e.days_until) (basicUpcoming payments today) :=
      (List.take_sublist 5 _).subset he
    rw [mem_sortOn] at he2
    obtain ⟨p, hp, hpe⟩ := List.mem_filterMap.mp he2
    cases hnd : p.next_expected_date with
    | none => rw [hnd] at hpe; cases hpe
    | some nd =>
      rw [hnd] at hpe
      simp only at hpe
      by_cases hcond : 0 ≤ nd - today ∧ nd - today ≤ 14
      · rw [if_pos hcond] at hpe
        injection hpe with hpe
        subst hpe
        exact ⟨p, hp, hnd, rfl, rfl, rfl, hcond.1, hcond.2⟩
      · rw [if_neg hcond] at hpe
        cases hpe
  · rw [hupc]
    exact (pairwise_sortOn _ _).sublist (List.take_sublist 5 _)
  · rw [hupc]
    exact List.length_take_le 5 _

/-- Concrete payment dictionary for the C8 witness. -/
def c8Pay : PayDict :=
  { merchant_key := "NETFLIX", merchant_name := "NETFLIX", category := "Entertainment"
    frequency := "monthly", typical_amount := 10, amount_variance := "fixed"
    confidence := "medium", transaction_count := 3, last_transaction_date := some (-25)
    next_expected_date := some 3, ai_notes := none }

/-- Witness for C8 at a concrete payment list (10% share, one upcoming
payment 3 days out). -/
theorem c8_basic_insights_witness :
    ((∃ i ∈ (_generate_basic_insights [c8Pay] 10 120 100 0 0).insights,
        i.title = "Expense Proportion") ↔ 5 ≤ basicPercentage 10 100) ∧
    (∀ e ∈ (_generate_basic_insights [c8Pay] 10 120 100 0 0).upcoming,
      ∃ p ∈ [c8Pay], p.next_expected_date = some e.date ∧ e.merchant = p.merchant_name ∧
        e.amount = p.typical_amount ∧ e.days_until = e.date - 0 ∧
        0 ≤ e.days_until ∧ e.days_until ≤ 14) ∧
    (_generate_basic_insights [c8Pay] 10 120 100 0 0).upcoming.Pairwise
      (fun a b => a.days_until ≤ b.days_until) ∧
    (_generate_basic_insights [c8Pay] 10 120 100 0 0).upcoming.length ≤ 5 :=
  c8_basic_insights [c8Pay] 10 120 100 0 0 (by decide)

theorem c10_upcoming_sound_sorted_witness :
    ∃ c ∈ [c10Row], c.user_id = 1 ∧ c.is_recurring = true ∧
      catNotIncome c.category = true ∧ ∃ dte, c.next_expected_date = some dte ∧
        (0 : ℤ) ≤ dte ∧ dte ≤ 0 + 7 ∧ c10Entry.expected_date = dte ∧
        c10Entry.days_until = dte - 0 ∧ 0 ≤ c10Entry.days_until ∧
        c10Entry.days_until ≤ 7 :=
  (c10_upcoming_sound_sorted 1 [c10Row] 7 0).1 c10Entry (by decide)

/-- C4: with `force_refresh = false` and a non-empty cached-recurring set
for the user, `detect_recurring_payments` returns exactly the cached
records, leaves the store untouched, and issues zero oracle calls. -/
theorem c4_cache_short_circuit (user_id : ℕ) (store : List RecurringCache)
    (table : List Transaction) (min_occurrences : ℕ) (lookback_days : ℤ)
    (oracle : Option (List Verdict)) (today now : ℤ)
    (h : cachedRecurringFor user_id store ≠ []) :
    detect_recurring_payments user_id store table min_occurrences lookback_days false
        oracle today now =
      { payments := (cachedRecurringFor user_id store).map _cache_to_dict
        store := store, oracleCalls := 0 } := by
  have hne : (cachedRecurringFor user_id store).isEmpty = false := by
    cases hc : cachedRecurringFor user_id store with
    | nil => exact absurd hc h
    | cons a as => rfl
  simp [detect_recurring_payments, hne]

/-- Witness for C4: a store holding one cached recurring row short-circuits. -/
theorem c4_cache_short_circuit_witness :
    detect_recurring_payments 1 [c10Row] [] 2 180 false none 0 7 =
      { payments := (cachedRecurringFor 1 [c10Row]).map _cache_to_dict
        store := [c10Row], oracleCalls := 0 } :=
  c4_cache_short_circuit 1 [c10Row] [] 2 180 none 0 7 (by decide)

/-- One NETFLIX expense observation (amount −15.99). -/
def nfTxn (i : ℕ) (d : ℤ) : Transaction :=
  { id := i, user_id := 1, merchant_key := "NETFLIX", date := d
    amount := -(1599 / 100 : ℚ), note_user := none, description_raw := "NETFLIX"
    category := some "Entertainment" }

/-- The three NETFLIX observations of the end-to-end scenario. -/
def netflixTable : List Transaction :=
  [nfTxn 1 (dateToDays 2025 1 1), nfTxn 2 (dateToDays 2025 2 1), nfTxn 3 (dateToDays 2025 3 3)]

unseal Rat.mul Rat.inv Rat.add Rat.sub in
/-- C5: three NETFLIX expenses of 15.99 on 2025-01-01, 2025-02-01 and
2025-03-03 with no oracle credentials yield exactly one recurring record
with frequency "monthly", typical amount 15.99, amount variance "fixed"
and next expected date 2025-04-02 (last date + 30 days). -/
theorem c5_netflix_end_to_end :
    (detect_recurring_payments 1 [] netflixTable 2 180 false none
        (dateToDays 2025 3 10) 0).payments.map
      (fun d => (d.frequency, d.typical_amount, d.amount_variance, d.next_expected_date)) =
      [("monthly", 1599 / 100, "fixed", some (dateToDays 2025 4 2))] := by
  decide

theorem mem_replaceFirst {α : Type} (p : α → Bool) (x c : α) :
    ∀ l : List α, c ∈ replaceFirst p x l → c ∈ l ∨ c = x := by
  intro l
  induction l with
  | nil => intro h; cases h
  | cons a as ih =>
    intro h
    cases ha : p a with
    | true =>
      rw [replaceFirst_cons_pos x as ha] at h
      rcases List.mem_cons.mp h with h | h
      · exact Or.inr h
      · exact Or.inl (List.mem_cons_of_mem a h)
    | false =>
      rw [replaceFirst_cons_neg x as ha] at h
      rcases List.mem_cons.mp h with h | h
      · exact Or.inl (h ▸ List.mem_cons_self a as)
      · rcases ih h with h | h
        · exact Or.inl (List.mem_cons_of_mem a h)
        · exact Or.inr h

/-- Every row of the store after `_algorithm_only_detection` is either an
untouched input row or one written by this run, carrying the fixed
"medium" confidence, `ai_verified = false` and `is_recurring = true`. -/
theorem algo_store_rows (uid : ℕ) (now : ℤ) (ms : List MerchantInfo) :
    ∀ store, ∀ c ∈ (_algorithm_only_detection ms uid now store).2, c ∈ store ∨
      (c.confidence = some "medium" ∧ c.ai_verified = false ∧ c.is_recurring = true ∧
        c.last_analyzed_at = now) := by
  induction ms with
  | nil => intro store c hc; exact Or.inl hc
  | cons m rest ih =>
    intro store c hc
    simp only [_algorithm_only_detection] at hc
    cases hf : detect_frequency_from_interval m.stats.avg_interval_days with
    | none =>
      simp only [hf] at hc
      exact ih store c hc
    | some f =>
      simp only [hf] at hc
      by_cases hcond : m.stats.amount_variance_pct < 20 ∧ 2 ≤ m.stats.count
      · rw [if_pos hcond] at hc
        have hc2 := ih _ c hc
        rcases hc2 with hc2 | hc2
        · unfold upsertInto at hc2
          cases hfind : store.find? (keyMatch uid m.merchant_key) with
          | some e =>
            rw [hfind] at hc2
            simp only at hc2
            rcases mem_replaceFirst _ _ _ store hc2 with h | h
            · exact Or.inl h
            · exact Or.inr (by rw [h]; exact ⟨rfl, rfl, rfl, rfl⟩)
          | none =>
            rw [hfind] at hc2
            simp only at hc2
            rcases List.mem_append.mp hc2 with h | h
            · exact Or.inl h
            · refine Or.inr ?_
              rw [List.mem_singleton.mp h]
              exact ⟨rfl, rfl, rfl, rfl⟩
        · exact Or.inr hc2
      · rw [if_neg hcond] at hc
        exact ih store c hc

/-- C2: with the oracle unavailable, the algorithm-only branch marks a
candidate merchant group recurring iff its average interval classifies to
a known frequency, its amount variance is strictly below 20% and it has
at least two transactions; every row it persists has confidence "medium"
and `ai_verified = false`.  (E.g. a weekly group with 5% amount variance
is returned with frequency "weekly" — see the witness.) -/
theorem c2_algorithm_only_marks (uid : ℕ) (now : ℤ) (ms : List MerchantInfo)
    (store : List RecurringCache)
    (hnd : (ms.map (fun m => m.merchant_key)).Nodup) :
    (∀ m ∈ ms,
      ((∃ d ∈ (_algorithm_only_detection ms uid now store).1,
          d.merchant_key = m.merchant_key) ↔
        ((detect_frequency_from_interval m.stats.avg_interval_days).isSome = true ∧
          m.stats.amount_variance_pct < 20 ∧ 2 ≤ m.stats.count)) ∧
      (∀ f, detect_frequency_from_interval m.stats.avg_interval_days = some f →
        m.stats.amount_variance_pct < 20 → 2 ≤ m.stats.count →
        ∃ d ∈ (_algorithm_only_detection ms uid now store).1,
          d.merchant_key = m.merchant_key ∧ d.frequency = f ∧ d.confidence = "medium")) ∧
    (∀ c ∈ (_algorithm_only_detection ms uid now store).2, c ∈ store ∨
      (c.confidence = some "medium" ∧ c.ai_verified = false ∧ c.is_recurring = true ∧
        c.last_analyzed_at = now)) := by
  refine ⟨?_, algo_store_rows uid now ms store⟩
  intro m hm
  constructor
  · constructor
    · rintro ⟨d, hd, hkey⟩
      obtain ⟨m0, hm0, f, hf0, hvar0, hcnt0, hdkey, _, _⟩ :=
        algo_payments_sound uid now ms store d hd
      have hmm : m0 = m :=
        List.inj_on_of_nodup_map hnd hm0 hm (by rw [← hdkey, hkey])
      subst hmm
      exact ⟨by rw [hf0]; rfl, hvar0, hcnt0⟩
    · rintro ⟨hsome, hvar, hcnt⟩
      obtain ⟨f, hf⟩ := Option.isSome_iff_exists.mp hsome
      obtain ⟨d, hd, hdkey, _, _⟩ :=
        algo_payments_complete uid now ms m hm f hf hvar hcnt store
      exact ⟨d, hd, hdkey⟩
  · intro f hf hvar hcnt
    exact algo_payments_complete uid now ms m hm f hf hvar hcnt store

/-- One GYM expense observation. -/
def gymTxn (i : ℕ) (d : ℤ) (a : ℚ) : Transaction :=
  { id := i, user_id := 1, merchant_key := "GYM", date := d, amount := -a
    note_user := none, description_raw := "GYM", category := some "Health" }

/-- A weekly group (intervals 7,7,7) with 5% amount variance. -/
def gymMerchant : MerchantInfo :=
  buildMerchant "GYM" [gymTxn 1 0 5, gymTxn 2 7 5, gymTxn 3 14 (525 / 100), gymTxn 4 21 5]

unseal Rat.mul Rat.inv Rat.add Rat.sub in
/-- Witness for C2 at the weekly example group. -/
theorem c2_algorithm_only_marks_witness :
    (∀ m ∈ [gymMerchant],
      ((∃ d ∈ (_algorithm_only_detection [gymMerchant] 1 0 []).1,
          d.merchant_key = m.merchant_key) ↔
        ((detect_frequency_from_interval m.stats.avg_interval_days).isSome = true ∧
          m.stats.amount_variance_pct < 20 ∧ 2 ≤ m.stats.count)) ∧
      (∀ f, detect_frequency_from_interval m.stats.avg_interval_days = some f →
        m.stats.amount_variance_pct < 20 → 2 ≤ m.stats.count →
        ∃ d ∈ (_algorithm_only_detection [gymMerchant] 1 0 []).1,
          d.merchant_key = m.merchant_key ∧ d.frequency = f ∧ d.confidence = "medium")) ∧
    (∀ c ∈ (_algorithm_only_detection [gymMerchant] 1 0 []).2, c ∈ ([] : List RecurringCache) ∨
      (c.confidence = some "medium" ∧ c.ai_verified = false ∧ c.is_recurring = true ∧
        c.last_analyzed_at = 0)) :=
  c2_algorithm_only_marks 1 0 [gymMerchant] [] (by decide)

/-- C6: when processing oracle verdicts, the persisted row for a verdict
with a matching merchant has `is_recurring` equal to the conjunction of
the verdict's `is_recurring` and `same_transaction` flags — so a merchant
is recorded as recurring only if both are true, and otherwise the row
stores `is_recurring = false` regardless of the raw flag. -/
theorem c6_verdict_both_flags (uid : ℕ) (now : ℤ) (ms : List MerchantInfo)
    (vs : List Verdict) (store : List RecurringCache)
    (hnd : (vs.filterMap keyOf).Nodup) :
    ∀ v ∈ vs, ∀ k, keyOf v = some k →
      ∀ m, ms.find? (fun x => x.merchant_key == k) = some m →
      ∃ c, ((_process_ai_results vs ms uid now store).2).find? (keyMatch uid k) = some c ∧
        c.is_recurring = (v.is_recurring && v.same_transaction) := by
  intro v hv k hk m hm
  rw [ai_store_eq]
  have hkey : (aiSpec uid ms).key? v = some k := by simp [aiSpec, hk, hm]
  have hnd2 : (vs.filterMap (aiSpec uid ms).key?).Nodup :=
    nodup_filterMap_mono keyOf _ (fun a k0 hk0 => (aiSpec_key_eq hk0).1) vs hnd
  rw [find?_storeRun_mem (aiSpec_lawful uid ms) now vs hnd2 v hv k hkey store]
  refine ⟨_, rfl, ?_⟩
  cases hf : store.find? (keyMatch uid k) with
  | some e => simp [aiSpec, hk, hm, aiUpdate]
  | none => simp [aiSpec, hk, hm, aiFresh]

/-- Oracle verdict for the C6 witness: raw `is_recurring = true` but
`same_transaction = false`. -/
def c6Verdict : Verdict :=
  { merchant_key := some "NETFLIX", is_recurring := true, same_transaction := false
    frequency := some "monthly", typical_amount := some (1599 / 100)
    amount_variance := some "fixed", confidence := some "high"
    next_expected_date := none, notes := some "similar amounts, different purpose" }

/-- The analyzed NETFLIX merchant bundle. -/
def c6Merchant : MerchantInfo := buildMerchant "NETFLIX" netflixTable

/-- Witness for C6: the persisted row stores `is_recurring = false`
(`true && false`). -/
theorem c6_verdict_both_flags_witness :
    ∃ c, ((_process_ai_results [c6Verdict] [c6Merchant] 1 0 []).2).find?
        (keyMatch 1 "NETFLIX") = some c ∧
      c.is_recurring = (c6Verdict.is_recurring && c6Verdict.same_transaction) :=
  c6_verdict_both_flags 1 0 [c6Merchant] [c6Verdict] [] (by decide) c6Verdict
    (List.mem_cons_self _ _) "NETFLIX" (by decide) c6Merchant rfl

/-- Two COFFEE expenses 3 days apart: an analyzed group whose interval
classifies to no frequency, hence judged non-recurring. -/
def coffeeTxns : List Transaction :=
  [{ id := 1, user_id := 1, merchant_key := "COFFEE", date := 0, amount := -3
     note_user := none, description_raw := "COFFEE", category := some "Food" },
   { id := 2, user_id := 1, merchant_key := "COFFEE", date := 3, amount := -3
     note_user := none, description_raw := "COFFEE", category := some "Food" }]

unseal Rat.mul Rat.inv Rat.add Rat.sub in
/-- Counterexample to C3 as stated: on the algorithm-only fallback path
the analyzed (but non-recurring) COFFEE merchant gets no record upserted —
the store stays empty, so it is not the case that a RecurringPatternRecord
is upserted for every analyzed merchant on this path. -/
theorem c3_counterexample :
    (_algorithm_only_detection [buildMerchant "COFFEE" coffeeTxns] 1 0 []).2 = [] ∧
    buildMerchant "COFFEE" coffeeTxns ∈ [buildMerchant "COFFEE" coffeeTxns] := by
  decide

/-- C3 (amended): on the AI path, every analyzed merchant for which the
oracle returned a verdict is upserted whether or not the verdict is
recurring, and non-recurring verdicts are excluded from the returned
list; on the algorithm-only fallback path only groups judged recurring
are upserted — a group judged non-recurring leaves the store unchanged
at its key. -/
theorem c3_merge_amended (uid : ℕ) (now : ℤ) (ms : List MerchantInfo)
    (vs : List Verdict) (store : List RecurringCache)
    (hndv : (vs.filterMap keyOf).Nodup)
    (hndm : (ms.map (fun m => m.merchant_key)).Nodup) :
    (∀ v ∈ vs, ∀ k, keyOf v = some k →
      ∀ m, ms.find? (fun x => x.merchant_key == k) = some m →
      (∃ c, ((_process_ai_results vs ms uid now store).2).find? (keyMatch uid k) = some c ∧
        c.last_analyzed_at = now) ∧
      ((v.is_recurring && v.same_transaction) = false →
        ∀ d ∈ (_process_ai_results vs ms uid now store).1, d.merchant_key ≠ k)) ∧
    (∀ m ∈ ms,
      ¬((detect_frequency_from_interval m.stats.avg_interval_days).isSome = true ∧
        m.stats.amount_variance_pct < 20 ∧ 2 ≤ m.stats.count) →
      ((_algorithm_only_detection ms uid now store).2).find? (keyMatch uid m.merchant_key) =
        store.find? (keyMatch uid m.merchant_key)) := by
  constructor
  · intro v hv k hk m hm
    constructor
    · rw [ai_store_eq]
      have hkey : (aiSpec uid ms).key? v = some k := by simp [aiSpec, hk, hm]
      have hnd2 : (vs.filterMap (aiSpec uid ms).key?).Nodup :=
        nodup_filterMap_mono keyOf _ (fun a k0 hk0 => (aiSpec_key_eq hk0).1) vs hndv
      rw [find?_storeRun_mem (aiSpec_lawful uid ms) now vs hnd2 v hv k hkey store]
      refine ⟨_, rfl, ?_⟩
      cases hf : store.find? (keyMatch uid k) with
      | some e => simp [aiSpec, hk, hm, aiUpdate]
      | none => simp [aiSpec, hk, hm, aiFresh]
    · intro hflags d hd hdk
      obtain ⟨v0, hv0, k0, m0, hk0, hm0, hflags0, hd0⟩ :=
        ai_payments_sound uid now ms vs store d hd
      have hkk : k0 = k := by rw [← hd0, hdk]
      subst hkk
      have hvv : v0 = v := filterMap_nodup_inj keyOf vs hndv v0 v hv0 hv k0 hk0 hk
      subst hvv
      rw [hflags] at hflags0
      cases hflags0
  · intro m hm hdec
    rw [algo_store_eq]
    apply find?_storeRun_notin (algoSpec_lawful uid)
    intro hmem
    obtain ⟨m0, hm0, hk0⟩ := List.mem_filterMap.mp hmem
    obtain ⟨f, hf0, hc0, hkey0⟩ := algoSpec_key_eq hk0
    have hmm : m0 = m := List.inj_on_of_nodup_map hndm hm0 hm hkey0.symm
    subst hmm
    exact hdec ⟨by rw [hf0]; rfl, hc0.1, hc0.2⟩

/-- Witness for the amended C3: one matched verdict (non-recurring) on the
AI path, and the non-recurring COFFEE group on the algorithm-only path. -/
theorem c3_merge_amended_witness :
    (∀ v ∈ [c6Verdict], ∀ k, keyOf v = some k →
      ∀ m, [c6Merchant, buildMerchant "COFFEE" coffeeTxns].find?
          (fun x => x.merchant_key == k) = some m →
      (∃ c, ((_process_ai_results [c6Verdict] [c6Merchant, buildMerchant "COFFEE" coffeeTxns]
          1 0 []).2).find? (keyMatch 1 k) = some c ∧ c.last_analyzed_at = 0) ∧
      ((v.is_recurring && v.same_transaction) = false →
        ∀ d ∈ (_process_ai_results [c6Verdict] [c6Merchant, buildMerchant "COFFEE" coffeeTxns]
            1 0 []).1, d.merchant_key ≠ k)) ∧
    (∀ m ∈ [c6Merchant, buildMerchant "COFFEE" coffeeTxns],
      ¬((detect_frequency_from_interval m.stats.avg_interval_days).isSome = true ∧
        m.stats.amount_variance_pct < 20 ∧ 2 ≤ m.stats.count) →
      ((_algorithm_only_detection [c6Merchant, buildMerchant "COFFEE" coffeeTxns]
          1 0 []).2).find? (keyMatch 1 m.merchant_key) =
        ([] : List RecurringCache).find? (keyMatch 1 m.merchant_key)) :=
  c3_merge_amended 1 0 [c6Merchant, buildMerchant "COFFEE" coffeeTxns] [c6Verdict] []
    (by decide) (by decide)

/-- Side condition for C9: on the AI path, the oracle returns at most one
verdict per merchant key (the adapter contract of the spec); trivially
satisfied on the algorithm-only path. -/
def oracleKeysOk : Option (List Verdict) → Prop
  | none => True
  | some vs => (vs.filterMap keyOf).Nodup

/-- The store produced by a forced-refresh detection run, written through
the named pipeline stages. -/
theorem detect_force_refresh_store (uid : ℕ) (store : List RecurringCache)
    (table : List Transaction) (minOcc : ℕ) (lb : ℤ)
    (oracle : Option (List Verdict)) (today now : ℤ) :
    (detect_recurring_payments uid store table minOcc lb true oracle today now).store =
      if (candidateGroups uid table minOcc lb today).isEmpty then store
      else
        match oracle with
        | none => (_algorithm_only_detection
            ((candidateGroups uid table minOcc lb today).map (fun g => buildMerchant g.1 g.2))
            uid now store).2
        | some vs => (_process_ai_results vs
            ((candidateGroups uid table minOcc lb today).map (fun g => buildMerchant g.1 g.2))
            uid now store).2 := by
  simp only [detect_recurring_payments, Bool.not_true, Bool.false_and]
  cases hemp : (candidateGroups uid table minOcc lb today).isEmpty with
  | true => simp [hemp]
  | false =>
    cases oracle with
    | none => simp [hemp]
    | some vs => simp [hemp]

/-- Distinctness of the analyzed merchants' keys, from the grouping. -/
theorem nodup_merchant_keys (uid : ℕ) (table : List Transaction) (minOcc : ℕ)
    (lb today : ℤ) :
    (((candidateGroups uid table minOcc lb today).map (fun g => buildMerchant g.1 g.2)).map
      (fun m => m.merchant_key)).Nodup := by
  have h1 := nodup_keys_groupByMerchant (lookbackTransactions uid table lb today)
  have hsub : List.Sublist ((candidateGroups uid table minOcc lb today).map Prod.fst)
      ((groupByMerchant (lookbackTransactions uid table lb today)).map Prod.fst) :=
    List.Sublist.map _ (List.filter_sublist _)
  have h2 := List.Nodup.sublist hsub h1
  rw [List.map_map]
  exact h2

/-- C9: running `detect_recurring_payments` twice in a row with
`force_refresh = true` over the same observations and the same oracle
verdicts (or twice on the algorithm-only path) leaves every field of
every cache row identical except `last_analyzed_at`. -/
theorem c9_force_refresh_idempotent (uid : ℕ) (store : List RecurringCache)
    (table : List Transaction) (minOcc : ℕ) (lb : ℤ)
    (oracle : Option (List Verdict)) (today n1 n2 : ℤ)
    (hnd : oracleKeysOk oracle) :
    ((detect_recurring_payments uid
        (detect_recurring_payments uid store table minOcc lb true oracle today n1).store
        table minOcc lb true oracle today n2).store).map stripLA =
      ((detect_recurring_payments uid store table minOcc lb true oracle today n1).store).map
        stripLA := by
  simp only [detect_force_refresh_store]
  cases hemp : (candidateGroups uid table minOcc lb today).isEmpty with
  | true => simp [hemp]
  | false =>
    simp only [hemp, Bool.false_eq_true, if_false]
    have hmk := nodup_merchant_keys uid table minOcc lb today
    cases oracle with
    | none =>
      simp only [algo_store_eq]
      exact storeRun_replay (algoSpec_lawful uid) n1 n2 _
        (nodup_filterMap_of_nodup_map (fun m => m.merchant_key) _
          (fun a k hk => by
            obtain ⟨f, _, _, hkey⟩ := algoSpec_key_eq hk
            exact hkey) _ hmk) store
    | some vs =>
      simp only [ai_store_eq]
      exact storeRun_replay
        (aiSpec_lawful uid ((candidateGroups uid table minOcc lb today).map
          (fun g => buildMerchant g.1 g.2))) n1 n2 vs
        (nodup_filterMap_mono keyOf _ (fun a k0 hk0 => (aiSpec_key_eq hk0).1) vs hnd) store

/-- Witness for C9 on the NETFLIX observations, algorithm-only path. -/
theorem c9_force_refresh_idempotent_witness :
    ((detect_recurring_payments 1
        (detect_recurring_payments 1 [] netflixTable 2 180 true none
          (dateToDays 2025 3 10) 100).store
        netflixTable 2 180 true none (dateToDays 2025 3 10) 200).store).map stripLA =
      ((detect_recurring_payments 1 [] netflixTable 2 180 true none
          (dateToDays 2025 3 10) 100).store).map stripLA :=
  c9_force_refresh_idempotent 1 [] netflixTable 2 180 none (dateToDays 2025 3 10)
    100 200 trivial

end Clearflow
